import Mathlib

/-! Dynamic text array: a shallow embedding of `src/arrays/arrays.c`.

The C structure `Array` (an `int capacity`, an `int count` and a pointer
`elements` to a block of `char *` slots) becomes a record whose `elements`
field is the list of the allocated slots, one entry per slot of the block
that `malloc` / `realloc` returned.  Every function of the C file is a
function on that record, with the mutated array passed out explicitly.

Modelling conventions

* An `int` is an integer of the range `-2^31 .. 2^31 - 1`.  The one
  product of the file, `capacity * 2` of line 66, is reduced modulo `2^32`
  into that range (`int_wrap`).  The other arithmetic (`count + 1`,
  `count - 1`, `i - 1`, `j + 1`) stays between `-1` and `capacity`, hence in
  range, and is written without reduction.
* A heap string is its content; `strdup` yields a slot that holds the
  content of its argument, `strcmp(..) == 0` is equality of contents.  The
  section `Mem` embeds `arr_insert` and `arr_append` a second time, with
  slots that hold addresses of a heap, for what is said about aliasing.
* `malloc` serves every request of a number of slots that is not negative.
  `realloc` serves every request of a positive number of slots; for a
  negative `int` (a size no allocator serves) and for zero (where
  `realloc(p, 0)` frees the block and returns `NULL`) it returns `NULL`,
  which is the fatal `exit(1)` path of line 70.
* An access `elements[i]` outside the allocated block, or a use of a slot
  that holds no valid pointer, has no defined result in C; the embedding
  returns a `Fault` there.
* What the C code prints on `stderr` is returned as an optional `Report`.
-/

namespace Arrays

/-- Ways in which a call does not return normally. -/
inductive Fault where
  /-- The allocator cannot serve the request: the code prints and calls `exit(1)`. -/
  | allocFailed
  /-- An access `elements[i]` with `i` outside the allocated block. -/
  | outOfBounds
  /-- A slot that holds no valid pointer is returned, compared or printed. -/
  | invalidPointer
  deriving DecidableEq, Repr

/-- The diagnostics the library writes to `stderr` before returning. -/
inductive Report where
  /-- The text is: Error: Index %d out of range (for insertion). -/
  | IndexOutOfRange
  /-- The text is: Error: Element '%s' not found. -/
  | NotFound
  deriving DecidableEq, Repr

/-- One `char *` slot of the backing block. -/
inductive Slot where
  /-- A slot never written since allocation, or whose string was freed. -/
  | junk
  /-- A pointer to a heap string with the given content. -/
  | str (s : String)
  deriving DecidableEq, Repr

/-- The C `struct Array`. -/
structure Array where
  /-- How many elements can this array hold? -/
  capacity : Int
  /-- How many elements does the array currently hold? -/
  count : Int
  /-- The allocated block of slots that `elements` points to. -/
  elements : List Slot
  deriving DecidableEq, Repr

/-- The read `elements[i]`. -/
def slot_get (es : List Slot) (i : Int) : Except Fault Slot :=
  if i < 0 then .error .outOfBounds
  else
    match es.get? i.toNat with
    | some x => .ok x
    | none => .error .outOfBounds

/-- The write `elements[i] = x`. -/
def slot_set (es : List Slot) (i : Int) (x : Slot) : Except Fault (List Slot) :=
  if i < 0 then .error .outOfBounds
  else if i.toNat < es.length then .ok (es.set i.toNat x)
  else .error .outOfBounds

/-- The content of the string a slot points to (what `strcmp`, `printf("%s")`
and the caller of `arr_read` see). -/
def slot_str (es : List Slot) (i : Int) : Except Fault String :=
  match slot_get es i with
  | .error e => .error e
  | .ok .junk => .error .invalidPointer
  | .ok (.str s) => .ok s

/-- The largest `int`. -/
def INT_MAX : Int := 2147483647

/-- The `int` that a 32-bit machine holds for the arithmetic result `x`:
two's complement wrap-around. -/
def int_wrap (x : Int) : Int :=
  (x + 2147483648) % 4294967296 - 2147483648

/-- What `realloc(elements, n * sizeof(char *))` returns for the `int` `n`,
`none` for `NULL`.  A negative `n` converts to a size no allocator serves,
and for `n = 0` the block is freed and `NULL` returned; for a positive `n`
the new block has the old contents up to the smaller of the two sizes and
fresh slots after them. -/
def realloc (es : List Slot) (n : Int) : Option (List Slot) :=
  if n ≤ 0 then none
  else some ((es ++ List.replicate n.toNat Slot.junk).take n.toNat)

/-- Function `create_array`, lines 22-42. -/
def create_array (capacity : Int) : Except Fault Array :=
  if capacity < 0 then .error .allocFailed
  else .ok { capacity := capacity, count := 0,
             elements := List.replicate capacity.toNat Slot.junk }

/-- Function `resize_array`, lines 65-76: the `int` product of line 66, the
request of line 67, the exit of lines 68-71 when it is not served. -/
def resize_array (arr : Array) : Except Fault Array :=
  let new_capacity := int_wrap (arr.capacity * 2)
  match realloc arr.elements new_capacity with
  | none => .error .allocFailed
  | some new_elements =>
    .ok { arr with elements := new_elements, capacity := new_capacity }

/-- Function `arr_read`, lines 90-99.  The result is the returned pointer (`none` is
`NULL`), the diagnostic, and the array after the call. -/
def arr_read (arr : Array) (index : Int) :
    Except Fault (Option String × Option Report × Array) :=
  if index < 0 ∨ index ≥ arr.count then
    .ok (none, some .IndexOutOfRange, arr)
  else
    match slot_str arr.elements index with
    | .error e => .error e
    | .ok s => .ok (some s, none, arr)

/-- The loop of lines 120-122,
`for (i = count; i > index; i--) elements[i] = elements[i - 1];`,
entered with `i = index + k`: the `k` iterations left are
`i = index + k, ..., index + 1`. -/
def shift_right (index : Int) : List Slot → Nat → Except Fault (List Slot)
  | es, 0 => .ok es
  | es, k + 1 =>
    match slot_get es (index + (k + 1 : Nat) - 1) with
    | .error e => .error e
    | .ok x =>
      match slot_set es (index + (k + 1 : Nat)) x with
      | .error e => .error e
      | .ok es1 => shift_right index es1 k

/-- The growth step shared by `arr_insert` (lines 115-117) and `arr_append`
(lines 141-143). -/
def grow_if_full (arr : Array) : Except Fault Array :=
  if arr.count = arr.capacity then resize_array arr else .ok arr

/-- Function `arr_insert`, lines 107-133. -/
def arr_insert (arr : Array) (element : String) (index : Int) :
    Except Fault (Option Report × Array) :=
  if index < 0 ∨ index > arr.count then
    .ok (some .IndexOutOfRange, arr)
  else
    match grow_if_full arr with
    | .error e => .error e
    | .ok arr1 =>
      match shift_right index arr1.elements (arr1.count - index).toNat with
      | .error e => .error e
      | .ok es =>
        match slot_set es index (.str element) with
        | .error e => .error e
        | .ok es1 => .ok (none, { arr1 with elements := es1, count := arr1.count + 1 })

/-- Function `arr_append`, lines 139-154. -/
def arr_append (arr : Array) (element : String) :
    Except Fault (Option Report × Array) :=
  match grow_if_full arr with
  | .error e => .error e
  | .ok arr1 =>
    match slot_set arr1.elements arr1.count (.str element) with
    | .error e => .error e
    | .ok es1 => .ok (none, { arr1 with elements := es1, count := arr1.count + 1 })

/-- The loop of lines 171-173,
`for (j = i; j < count - 1; j++) elements[j] = elements[j + 1];`,
at index `j` with `k` iterations left (`k = count - 1 - j`). -/
def shift_left : List Slot → Int → Nat → Except Fault (List Slot)
  | es, _, 0 => .ok es
  | es, j, k + 1 =>
    match slot_get es (j + 1) with
    | .error e => .error e
    | .ok x =>
      match slot_set es j x with
      | .error e => .error e
      | .ok es1 => shift_left es1 (j + 1) k

/-- The loop of lines 165-178 at index `i` with `k` iterations left
(`k = count - i`), followed by the report of lines 180-182 when the loop
ends with `found == 0`. -/
def remove_scan (arr : Array) (element : String) : Int → Nat →
    Except Fault (Option Report × Array)
  | _, 0 => .ok (some .NotFound, arr)
  | i, k + 1 =>
    match slot_str arr.elements i with
    | .error e => .error e
    | .ok s =>
      if s = element then
        -- free(arr->elements[i])
        match slot_set arr.elements i .junk with
        | .error e => .error e
        | .ok es0 =>
          match shift_left es0 i (arr.count - 1 - i).toNat with
          | .error e => .error e
          | .ok es1 => .ok (none, { arr with elements := es1, count := arr.count - 1 })
      else remove_scan arr element (i + 1) k

/-- Function `arr_remove`, lines 163-183. -/
def arr_remove (arr : Array) (element : String) :
    Except Fault (Option Report × Array) :=
  remove_scan arr element 0 arr.count.toNat

/-- The loop of lines 191-196 at index `i` with `k` iterations left; `out`
is what has been written to `stdout` so far. -/
def print_loop (arr : Array) : String → Int → Nat → Except Fault String
  | out, _, 0 => .ok out
  | out, i, k + 1 =>
    match slot_str arr.elements i with
    | .error e => .error e
    | .ok s =>
      let out1 := out ++ s
      let out2 := if i ≠ arr.count - 1 then out1 ++ ", " else out1
      print_loop arr out2 (i + 1) k

/-- Function `arr_print`, lines 189-198: the text written to `stdout` and the array
after the call. -/
def arr_print (arr : Array) : Except Fault (String × Array) :=
  match print_loop arr "[" 0 arr.count.toNat with
  | .error e => .error e
  | .ok out => .ok (out ++ "]\n", arr)

/-! ## Predicates of the data model -/

/-- The live sequence: the slots at indices `0 .. count - 1`. -/
def live (arr : Array) : List Slot :=
  arr.elements.take arr.count.toNat

/-- The block `elements` points to has exactly `capacity` slots. -/
def Allocated (arr : Array) : Prop :=
  (arr.elements.length : Int) = arr.capacity

/-- Every live slot points to a string. -/
def Owned (arr : Array) : Prop :=
  ∀ x ∈ live arr, x ≠ Slot.junk

/-- The invariant of the data model: `0 <= count <= capacity`. -/
def CountInv (arr : Array) : Prop :=
  0 ≤ arr.count ∧ arr.count ≤ arr.capacity

instance (arr : Array) : Decidable (Allocated arr) := by
  unfold Allocated; infer_instance

instance (arr : Array) : Decidable (Owned arr) := by
  unfold Owned; infer_instance

instance (arr : Array) : Decidable (CountInv arr) := by
  unfold CountInv; infer_instance

/-- The growth step of the array cannot fail: there is a free slot, or the
doubled capacity is an `int`. -/
def CanGrow (arr : Array) : Prop :=
  arr.count < arr.capacity ∨ arr.capacity * 2 ≤ INT_MAX

/-- An array of the data model: the block has `capacity >= 1` slots, the
first `count` of them hold strings, `0 <= count <= capacity`, and `capacity`
is an `int`. -/
def WellFormed (arr : Array) : Prop :=
  Allocated arr ∧ Owned arr ∧ CountInv arr ∧ 1 ≤ arr.capacity ∧ arr.capacity ≤ INT_MAX

instance (arr : Array) : Decidable (CanGrow arr) := by
  unfold CanGrow; infer_instance

instance (arr : Array) : Decidable (WellFormed arr) := by
  unfold WellFormed; infer_instance

/-- The full array of `n` elements, each a copy of "a", in a block of `n`
slots. -/
def full_array (n : Nat) : Array :=
  { capacity := n, count := n, elements := List.replicate n (Slot.str "a") }

/-- The array of `n` elements, each a copy of "a", in a block of `n + 1`
slots. -/
def spare_array (n : Nat) : Array :=
  { capacity := n + 1, count := n,
    elements := List.replicate n (Slot.str "a") ++ [Slot.junk] }

/-! ## A client that calls the growing operations in sequence -/

/-- One call of a growing operation, as a client such as `main` (lines
206-209) issues it. -/
inductive Call where
  /-- The call is `arr_insert(arr, element, index)`. -/
  | insert (element : String) (index : Int)
  /-- The call is `arr_append(arr, element)`. -/
  | append (element : String)
  deriving DecidableEq, Repr

/-- The string a call hands over. -/
def Call.element : Call → String
  | .insert e _ => e
  | .append e => e

/-- What the call returns. -/
def call (arr : Array) : Call → Except Fault (Option Report × Array)
  | .insert e i => arr_insert arr e i
  | .append e => arr_append arr e

/-- A client that issues the calls in order on the same array: the final
array when every call returned without a report, `none` otherwise. -/
def run_calls (arr : Array) : List Call → Option Array
  | [] => some arr
  | c :: cs =>
    match call arr c with
    | .ok (none, arr1) => run_calls arr1 cs
    | _ => none

/-- Every index handed to `arr_insert` satisfies `0 <= index <= count` at the
time of its call, for a sequence of calls that starts at `count = n`. -/
def valid_calls : Int → List Call → Bool
  | _, [] => true
  | n, .insert _ i :: cs => decide (0 ≤ i ∧ i ≤ n) && valid_calls (n + 1) cs
  | n, .append _ :: cs => valid_calls (n + 1) cs

/-! ## The slot accesses of the mutating operations -/

/-- One access `elements[i]` of the C code. -/
inductive Access where
  /-- The content of slot `i` is read: line 121 (`elements[i - 1]`), line 166
  (`strcmp`), line 168 (`free`), line 172 (`elements[j + 1]`). -/
  | read (i : Int)
  /-- Slot `i` is written: lines 121, 125, 146, 172. -/
  | write (i : Int)
  /-- The pointer just stored in slot `i` is tested against `NULL`: lines 126
  and 147. -/
  | check (i : Int)
  deriving DecidableEq, Repr

/-- The index of the slot accessed. -/
def Access.index : Access → Int
  | .read i => i
  | .write i => i
  | .check i => i

/-- Whether the access reads what the slot held before the call. -/
def Access.isRead : Access → Bool
  | .read _ => true
  | .write _ => false
  | .check _ => false

/-- The accesses of the loop of lines 120-122 in program order, entered with
`i = index + k`: each iteration reads `elements[i - 1]` and writes
`elements[i]`. -/
def shift_right_accesses (index : Int) : Nat → List Access
  | 0 => []
  | k + 1 =>
    .read (index + (k + 1 : Nat) - 1) :: .write (index + (k + 1 : Nat)) ::
      shift_right_accesses index k

/-- The accesses of `arr_insert`: none when the guard of line 109 reports or
the growth step exits, otherwise those of the shift loop, the store of line
125 and the test of line 126. -/
def arr_insert_accesses (arr : Array) (index : Int) : List Access :=
  if index < 0 ∨ index > arr.count then []
  else
    match grow_if_full arr with
    | .error _ => []
    | .ok arr1 =>
      shift_right_accesses index (arr1.count - index).toNat ++
        [.write index, .check index]

/-- The accesses of `arr_append`: none when the growth step exits, otherwise
the store of line 146 and the test of line 147. -/
def arr_append_accesses (arr : Array) : List Access :=
  match grow_if_full arr with
  | .error _ => []
  | .ok arr1 => [.write arr1.count, .check arr1.count]

/-- The accesses of the loop of lines 171-173 at index `j` with `k`
iterations left: each iteration reads `elements[j + 1]` and writes
`elements[j]`. -/
def shift_left_accesses : Int → Nat → List Access
  | _, 0 => []
  | j, k + 1 => .read (j + 1) :: .write j :: shift_left_accesses (j + 1) k

/-- The accesses of the loop of lines 165-178 at index `i` with `k`
iterations left: the comparison of line 166 reads `elements[i]`; on a match
line 168 reads it again and the left shift follows. -/
def remove_scan_accesses (arr : Array) (element : String) : Int → Nat → List Access
  | _, 0 => []
  | i, k + 1 =>
    match slot_str arr.elements i with
    | .error _ => [.read i]
    | .ok s =>
      if s = element then
        .read i :: .read i :: shift_left_accesses i (arr.count - 1 - i).toNat
      else .read i :: remove_scan_accesses arr element (i + 1) k

/-- The accesses of `arr_remove`. -/
def arr_remove_accesses (arr : Array) (element : String) : List Access :=
  remove_scan_accesses arr element 0 arr.count.toNat

/-! ## The growing operations over a heap of strings -/

namespace Mem

/-- The heap of C strings: entry `a` is the content of the block at address
`a`, `none` once that block is freed.  Blocks are handed out at increasing
addresses, so the length of the list is the first address not yet in use. -/
abbrev Heap := List (Option String)

/-- The string at an address, `none` when no block is allocated there. -/
def deref (h : Heap) (a : Nat) : Option String :=
  match h.get? a with
  | some (some s) => some s
  | _ => none

/-- The call `strdup(p)`: a new block, at an address not in use before, that
holds a copy of the string at `p`. -/
def strdup (h : Heap) (p : Nat) : Except Fault (Nat × Heap) :=
  match deref h p with
  | none => .error .invalidPointer
  | some s => .ok (h.length, h ++ [some s])

/-- The caller writes another string into its buffer at `p`. -/
def overwrite (h : Heap) (p : Nat) (s : String) : Heap :=
  h.set p (some s)

/-- The caller releases its buffer: `free(p)`. -/
def release (h : Heap) (p : Nat) : Heap :=
  h.set p none

/-- The C `struct Array` with its `char *` slots as addresses; `none` is a
slot never written. -/
structure Array where
  /-- How many elements can this array hold? -/
  capacity : Int
  /-- How many elements does the array currently hold? -/
  count : Int
  /-- The allocated block of slots that `elements` points to. -/
  elements : List (Option Nat)
  deriving DecidableEq, Repr

/-- The read `elements[i]`. -/
def slot_get (es : List (Option Nat)) (i : Int) : Except Fault (Option Nat) :=
  if i < 0 then .error .outOfBounds
  else
    match es.get? i.toNat with
    | some x => .ok x
    | none => .error .outOfBounds

/-- The write `elements[i] = x`. -/
def slot_set (es : List (Option Nat)) (i : Int) (x : Option Nat) :
    Except Fault (List (Option Nat)) :=
  if i < 0 then .error .outOfBounds
  else if i.toNat < es.length then .ok (es.set i.toNat x)
  else .error .outOfBounds

/-- What `realloc(elements, n * sizeof(char *))` returns for the `int` `n`,
`none` for `NULL`. -/
def realloc (es : List (Option Nat)) (n : Int) : Option (List (Option Nat)) :=
  if n ≤ 0 then none
  else some ((es ++ List.replicate n.toNat none).take n.toNat)

/-- Function `resize_array`, lines 65-76. -/
def resize_array (arr : Array) : Except Fault Array :=
  let new_capacity := int_wrap (arr.capacity * 2)
  match realloc arr.elements new_capacity with
  | none => .error .allocFailed
  | some new_elements =>
    .ok { arr with elements := new_elements, capacity := new_capacity }

/-- The growth step of lines 115-117 and 141-143. -/
def grow_if_full (arr : Array) : Except Fault Array :=
  if arr.count = arr.capacity then resize_array arr else .ok arr

/-- The loop of lines 120-122, entered with `i = index + k`. -/
def shift_right (index : Int) : List (Option Nat) → Nat → Except Fault (List (Option Nat))
  | es, 0 => .ok es
  | es, k + 1 =>
    match slot_get es (index + (k + 1 : Nat) - 1) with
    | .error e => .error e
    | .ok x =>
      match slot_set es (index + (k + 1 : Nat)) x with
      | .error e => .error e
      | .ok es1 => shift_right index es1 k

/-- Function `arr_insert`, lines 107-133, with `element` the address of the
caller's string: the slot receives the address `strdup` returns. -/
def arr_insert (h : Heap) (arr : Array) (element : Nat) (index : Int) :
    Except Fault (Option Report × Array × Heap) :=
  if index < 0 ∨ index > arr.count then
    .ok (some .IndexOutOfRange, arr, h)
  else
    match grow_if_full arr with
    | .error e => .error e
    | .ok arr1 =>
      match shift_right index arr1.elements (arr1.count - index).toNat with
      | .error e => .error e
      | .ok es =>
        match strdup h element with
        | .error e => .error e
        | .ok (a, h1) =>
          match slot_set es index (some a) with
          | .error e => .error e
          | .ok es1 =>
            .ok (none, { arr1 with elements := es1, count := arr1.count + 1 }, h1)

/-- Function `arr_append`, lines 139-154, with `element` the address of the
caller's string. -/
def arr_append (h : Heap) (arr : Array) (element : Nat) :
    Except Fault (Option Report × Array × Heap) :=
  match grow_if_full arr with
  | .error e => .error e
  | .ok arr1 =>
    match strdup h element with
    | .error e => .error e
    | .ok (a, h1) =>
      match slot_set arr1.elements arr1.count (some a) with
      | .error e => .error e
      | .ok es1 =>
        .ok (none, { arr1 with elements := es1, count := arr1.count + 1 }, h1)

end Mem

/-! ## Slot accesses inside the allocated block -/

theorem slot_get_ok (es : List Slot) (n : Nat) (h : n < es.length) :
    slot_get es (n : Int) = .ok es[n] := by
  have h1 : ¬ ((n : Int) < 0) := by omega
  simp [slot_get, h1, List.getElem?_eq_getElem h]

theorem slot_set_ok (es : List Slot) (n : Nat) (x : Slot) (h : n < es.length) :
    slot_set es (n : Int) x = .ok (es.set n x) := by
  have h1 : ¬ ((n : Int) < 0) := by omega
  simp [slot_set, h1, h]

theorem slot_str_ok (es : List Slot) (n : Nat) (s : String)
    (h : es[n]? = some (Slot.str s)) : slot_str es (n : Int) = .ok s := by
  have h1 : ¬ ((n : Int) < 0) := by omega
  simp [slot_str, slot_get, h1, h]

/-! ## The right shift of `arr_insert` -/

/-- The right-shift loop over slots `p + 1 .. p + k` stays inside a block
that has a slot `p + k`, and moves every slot of `p .. p + k - 1` one place
up, leaving all other slots as they were. -/
theorem shift_right_ok (p : Nat) : ∀ (k : Nat) (es : List Slot), p + k < es.length →
    ∃ es1, shift_right (p : Int) es k = .ok es1 ∧ es1.length = es.length ∧
      ∀ j, es1[j]? = if p < j ∧ j ≤ p + k then es[j - 1]? else es[j]? := by
  intro k
  induction k with
  | zero =>
    intro es _
    refine ⟨es, rfl, rfl, ?_⟩
    intro j
    have hno : ¬ (p < j ∧ j ≤ p) := by omega
    simp [hno]
  | succ k ih =>
    intro es h
    have e1 : (p : Int) + ((k + 1 : Nat) : Int) - 1 = ((p + k : Nat) : Int) := by
      push_cast; ring
    have e2 : (p : Int) + ((k + 1 : Nat) : Int) = ((p + k + 1 : Nat) : Int) := by
      push_cast; ring
    have hlt : p + k < es.length := by omega
    have hlt1 : p + k + 1 < es.length := by omega
    obtain ⟨es1, hs, hl, hj⟩ := ih (es.set (p + k + 1) es[p + k]) (by simp; omega)
    refine ⟨es1, ?_, by simpa using hl, ?_⟩
    · simp only [shift_right]
      rw [e1, e2, slot_get_ok es (p + k) hlt]
      simp only [slot_set_ok es (p + k + 1) _ hlt1]
      exact hs
    · intro j
      rw [hj j]
      by_cases c1 : p < j ∧ j ≤ p + k
      · have c2 : p < j ∧ j ≤ p + (k + 1) := by omega
        have c3 : p + k + 1 ≠ j - 1 := by omega
        simp [c1, c2, List.getElem?_set_ne c3]
      · by_cases c4 : j = p + k + 1
        · subst c4
          have c2 : p < p + k + 1 ∧ p + k + 1 ≤ p + (k + 1) := by omega
          simp [c1, c2, hlt1, List.getElem?_eq_getElem hlt]
        · have c2 : ¬ (p < j ∧ j ≤ p + (k + 1)) := by omega
          have c3 : p + k + 1 ≠ j := by omega
          simp [c1, c2, List.getElem?_set_ne c3]

/-- The storage after the shift and the store of `x` at slot `p`, for a
block with a slot `c` and `p <= c`: the first `c + 1` slots are the old first
`c` slots with `x` put in at position `p`. -/
theorem insert_core (es : List Slot) (p c : Nat) (x : Slot)
    (hp : p ≤ c) (hc : c < es.length) :
    ∃ es1 es2, shift_right (p : Int) es (c - p) = .ok es1 ∧
      slot_set es1 (p : Int) x = .ok es2 ∧ es2.length = es.length ∧
      es2.take (c + 1) = (es.take c).take p ++ [x] ++ (es.take c).drop p := by
  obtain ⟨es1, hs, hl, hj⟩ := shift_right_ok p (c - p) es (by omega)
  have hp1 : p < es1.length := by omega
  refine ⟨es1, es1.set p x, hs, slot_set_ok es1 p x hp1, by simp [hl], ?_⟩
  apply List.ext_getElem?
  intro j
  have hlen : ((es.take c).take p).length = p := by
    simp; omega
  rcases Nat.lt_trichotomy j p with c1 | c1 | c1
  · have a1 : p ≠ j := by omega
    have a2 : ¬ (p < j ∧ j ≤ p + (c - p)) := by omega
    have a3 : j < c + 1 := by omega
    have a4 : j < c := by omega
    rw [List.getElem?_take_of_lt a3, List.getElem?_set_ne a1, hj j, if_neg a2,
      List.append_assoc, List.getElem?_append_left (by omega),
      List.getElem?_take_of_lt c1, List.getElem?_take_of_lt a4]
  · subst c1
    have a3 : j < c + 1 := by omega
    rw [List.getElem?_take_of_lt a3, List.getElem?_set_self hp1,
      List.append_assoc, List.getElem?_append_right (by omega), hlen]
    simp
  · have a1 : p ≠ j := by omega
    rw [List.append_assoc, List.getElem?_append_right (by omega), hlen]
    obtain ⟨d, rfl⟩ : ∃ d, j = p + 1 + d := ⟨j - p - 1, by omega⟩
    have a5 : p + 1 + d - p = d + 1 := by omega
    rw [a5, List.singleton_append, List.getElem?_cons_succ, List.getElem?_drop,
      List.getElem?_take, List.getElem?_take, List.getElem?_set_ne a1, hj]
    by_cases c2 : p + 1 + d ≤ c
    · have a6 : p < p + 1 + d ∧ p + 1 + d ≤ p + (c - p) := by omega
      have a7 : p + 1 + d < c + 1 := by omega
      have a8 : p + d < c := by omega
      have a9 : p + 1 + d - 1 = p + d := by omega
      simp [a6, a7, a8, a9]
    · have a7 : ¬ (p + 1 + d < c + 1) := by omega
      have a8 : ¬ (p + d < c) := by omega
      simp [a7, a8]

/-! ## Growth -/

/-- An arithmetic result inside the range of `int` is held as it is. -/
theorem int_wrap_in_range (x : Int) (h1 : -2147483648 ≤ x) (h2 : x ≤ INT_MAX) :
    int_wrap x = x := by
  unfold INT_MAX at h2
  unfold int_wrap
  omega

/-- A request of a positive number of slots is served. -/
theorem realloc_some (es : List Slot) (n : Int) (hn : 0 < n) :
    realloc es n = some ((es ++ List.replicate n.toNat Slot.junk).take n.toNat) := by
  have h : ¬ (n ≤ 0) := by omega
  simp only [realloc, h, if_false]

/-- The doubling of a capacity `>= 1` whose double is an `int`. -/
theorem resize_array_ok (arr : Array) (hcap : 1 ≤ arr.capacity)
    (hfit : arr.capacity * 2 ≤ INT_MAX) :
    resize_array arr = .ok { arr with
      elements := (arr.elements ++ List.replicate (arr.capacity * 2).toNat Slot.junk).take
        (arr.capacity * 2).toNat,
      capacity := arr.capacity * 2 } := by
  have hw : int_wrap (arr.capacity * 2) = arr.capacity * 2 :=
    int_wrap_in_range _ (by omega) hfit
  simp only [resize_array, hw, realloc_some arr.elements (arr.capacity * 2) (by omega)]

/-- The doubling of an `int` capacity whose double is no `int`: the product
wraps to a value that is not positive, the request is not served and the
call exits. -/
theorem resize_array_exits (arr : Array) (hbig : INT_MAX < arr.capacity * 2)
    (hint : arr.capacity ≤ INT_MAX) : resize_array arr = .error Fault.allocFailed := by
  unfold INT_MAX at hbig hint
  have hw : int_wrap (arr.capacity * 2) ≤ 0 := by
    unfold int_wrap
    omega
  simp only [resize_array, realloc, hw, if_true]

/-- What the growth step does to an array that satisfies the invariants of
the data model and can grow. -/
theorem grow_if_full_ok (arr : Array) (halloc : Allocated arr) (hcap : 1 ≤ arr.capacity)
    (hc : arr.count ≤ arr.capacity) (hgrow : CanGrow arr) :
    ∃ arr1, grow_if_full arr = .ok arr1 ∧ arr1.count = arr.count ∧
      Allocated arr1 ∧ arr1.count < arr1.capacity ∧
      arr1.elements.take arr.count.toNat = arr.elements.take arr.count.toNat ∧
      arr1.capacity = (if arr.count = arr.capacity then 2 * arr.capacity else arr.capacity) := by
  unfold Allocated at halloc
  by_cases hfull : arr.count = arr.capacity
  · have hfit : arr.capacity * 2 ≤ INT_MAX := by
      rcases hgrow with h | h
      · omega
      · exact h
    refine ⟨{ arr with
        elements := (arr.elements ++ List.replicate (arr.capacity * 2).toNat Slot.junk).take
          (arr.capacity * 2).toNat,
        capacity := arr.capacity * 2 },
      by rw [grow_if_full, if_pos hfull]; exact resize_array_ok arr hcap hfit,
      rfl, ?_, ?_, ?_, ?_⟩
    · simp only [Allocated, List.length_take, List.length_append, List.length_replicate]
      omega
    · simp only; omega
    · simp only
      rw [List.take_take, Nat.min_eq_left (by omega), List.take_append_eq_append_take,
        Nat.sub_eq_zero_of_le (by omega)]
      simp
    · simp only [hfull, if_true]; ring
  · refine ⟨arr, by simp [grow_if_full, hfull], rfl, halloc, by omega, rfl, by simp [hfull]⟩

/-- The growth step of a full array whose doubled capacity is no `int`
exits. -/
theorem grow_if_full_exits (arr : Array) (hfull : arr.count = arr.capacity)
    (hbig : INT_MAX < arr.capacity * 2) (hint : arr.capacity ≤ INT_MAX) :
    grow_if_full arr = .error Fault.allocFailed := by
  simp only [grow_if_full, hfull, if_true, resize_array_exits arr hbig hint]

/-- On a full array whose doubled capacity is no `int`, `arr_insert` at a
valid index exits in the growth step. -/
theorem arr_insert_exits (arr : Array) (v : String) (i : Int)
    (hfull : arr.count = arr.capacity) (hbig : INT_MAX < arr.capacity * 2)
    (hint : arr.capacity ≤ INT_MAX) (hi0 : 0 ≤ i) (hi : i ≤ arr.count) :
    arr_insert arr v i = .error Fault.allocFailed := by
  have hguard : ¬ (i < 0 ∨ i > arr.count) := by omega
  simp only [arr_insert, hguard, if_false, grow_if_full_exits arr hfull hbig hint]

/-- On a full array whose doubled capacity is no `int`, `arr_append` exits
in the growth step. -/
theorem arr_append_exits (arr : Array) (v : String)
    (hfull : arr.count = arr.capacity) (hbig : INT_MAX < arr.capacity * 2)
    (hint : arr.capacity ≤ INT_MAX) :
    arr_append arr v = .error Fault.allocFailed := by
  simp only [arr_append, grow_if_full_exits arr hfull hbig hint]

/-- The full array of `n` elements is an array of the data model, for
`1 <= n <= INT_MAX`. -/
theorem full_array_wf (n : Nat) (h1 : 1 ≤ n) (h2 : (n : Int) ≤ INT_MAX) :
    WellFormed (full_array n) := by
  refine ⟨?_, ?_, ⟨?_, ?_⟩, ?_, h2⟩
  · simp [Allocated, full_array]
  · intro x hx
    have hx1 : x ∈ List.replicate n (Slot.str "a") := List.mem_of_mem_take hx
    rw [List.eq_of_mem_replicate hx1]
    exact fun h => Slot.noConfusion h
  · simp [full_array]
  · simp [full_array]
  · simp only [full_array]; omega

/-- The full array of `2^30` elements is an array of the data model. -/
theorem full_array_limit_wf : WellFormed (full_array 1073741824) :=
  full_array_wf 1073741824 (by norm_num) (by norm_num [INT_MAX])

/-- On the full array of `2^30` elements `arr_insert` at every valid index
exits in the growth step. -/
theorem full_array_limit_insert (v : String) (i : Int) (hi0 : 0 ≤ i)
    (hi : i ≤ (full_array 1073741824).count) :
    arr_insert (full_array 1073741824) v i = .error Fault.allocFailed :=
  arr_insert_exits _ v i rfl (by norm_num [full_array, INT_MAX])
    (by norm_num [full_array, INT_MAX]) hi0 hi

/-- On the full array of `2^30` elements `arr_append` exits in the growth
step. -/
theorem full_array_limit_append (v : String) :
    arr_append (full_array 1073741824) v = .error Fault.allocFailed :=
  arr_append_exits _ v rfl (by norm_num [full_array, INT_MAX])
    (by norm_num [full_array, INT_MAX])

/-- No live element of a full array of copies of "a" equals another string. -/
theorem full_array_absent (n : Nat) (v : String) (hv : v ≠ "a") :
    Slot.str v ∉ live (full_array n) := by
  intro hx
  have hx1 : Slot.str v ∈ List.replicate n (Slot.str "a") := List.mem_of_mem_take hx
  have hx2 := List.eq_of_mem_replicate hx1
  injection hx2 with h
  exact hv h

/-- The whole of `arr_insert` at a valid index `p` of an array that
satisfies the invariants of the data model and can grow: the resulting
record. -/
theorem arr_insert_ok (arr : Array) (v : String) (p : Nat)
    (halloc : Allocated arr) (hcap : 1 ≤ arr.capacity)
    (h0 : 0 ≤ arr.count) (hc : arr.count ≤ arr.capacity) (hgrow : CanGrow arr)
    (hi : (p : Int) ≤ arr.count) :
    ∃ es2, arr_insert arr v (p : Int) = .ok (none,
        { capacity := if arr.count = arr.capacity then 2 * arr.capacity else arr.capacity,
          count := arr.count + 1, elements := es2 }) ∧
      (es2.length : Int) =
        (if arr.count = arr.capacity then 2 * arr.capacity else arr.capacity) ∧
      es2.take (arr.count.toNat + 1) =
        (arr.elements.take arr.count.toNat).take p ++ [Slot.str v] ++
          (arr.elements.take arr.count.toNat).drop p := by
  obtain ⟨g, hg, hgc, hga, hglt, hgt, hgcap⟩ := grow_if_full_ok arr halloc hcap hc hgrow
  unfold Allocated at hga
  have hpc : p ≤ arr.count.toNat := by omega
  have hcl : arr.count.toNat < g.elements.length := by omega
  obtain ⟨es1, es2, hs, hw, hl, ht⟩ :=
    insert_core g.elements p arr.count.toNat (Slot.str v) hpc hcl
  have hk : (arr.count - (p : Int)).toNat = arr.count.toNat - p := by omega
  have hguard : ¬ ((p : Int) < 0 ∨ (p : Int) > arr.count) := by omega
  refine ⟨es2, ?_, ?_, ?_⟩
  · simp only [arr_insert, hguard, if_false, hg, hk, hs, hw, hgc, hgcap]
  · rw [← hgcap, ← hga, hl]
  · rw [ht, hgt]

/-! ## C1 -/

/-- C1 as stated fails: the full array of `2^30` elements has
`capacity >= 1` and `0 <= count <= capacity`, and `arr_insert` at the valid
index 0 does not return an array: the product `capacity * 2` of line 66 is
no `int`, the request of line 67 is not served and line 70 exits. -/
theorem arr_insert_exits_at_int_limit :
    Allocated (full_array 1073741824) ∧ 1 ≤ (full_array 1073741824).capacity ∧
    0 ≤ (full_array 1073741824).count ∧
    (full_array 1073741824).count ≤ (full_array 1073741824).capacity ∧
    arr_insert (full_array 1073741824) "b" 0 = .error Fault.allocFailed ∧
    ¬ ∃ arr1, arr_insert (full_array 1073741824) "b" 0 = .ok (none, arr1) := by
  have hwf := full_array_wf 1073741824 (by norm_num) (by norm_num [INT_MAX])
  have hex : arr_insert (full_array 1073741824) "b" 0 = .error Fault.allocFailed :=
    arr_insert_exits _ "b" 0 rfl (by norm_num [full_array, INT_MAX])
      (by norm_num [full_array, INT_MAX]) (le_refl _) (by norm_num [full_array])
  refine ⟨hwf.1, hwf.2.2.2.1, hwf.2.2.1.1, hwf.2.2.1.2, hex, ?_⟩
  rintro ⟨arr1, h⟩
  rw [hex] at h
  exact Except.noConfusion h

/-- C1, amended: for an array whose block has `capacity >= 1` slots, with
`0 <= count <= capacity` and with a free slot or a doubled capacity that is
an `int`, and an index `0 <= i <= count`, `arr_insert` returns without a
report, the live sequence becomes the old live slots before `i`, then the
new value, then the old live slots from `i` on, and `count` grows by exactly
one. -/
theorem arr_insert_spec (arr : Array) (v : String) (i : Int)
    (halloc : Allocated arr) (hcap : 1 ≤ arr.capacity)
    (h0 : 0 ≤ arr.count) (hc : arr.count ≤ arr.capacity) (hgrow : CanGrow arr)
    (hi0 : 0 ≤ i) (hi : i ≤ arr.count) :
    ∃ arr1, arr_insert arr v i = .ok (none, arr1) ∧
      live arr1 = (live arr).take i.toNat ++ [Slot.str v] ++ (live arr).drop i.toNat ∧
      arr1.count = arr.count + 1 := by
  obtain ⟨p, rfl⟩ := Int.eq_ofNat_of_zero_le hi0
  obtain ⟨es2, hr, -, ht⟩ := arr_insert_ok arr v p halloc hcap h0 hc hgrow hi
  refine ⟨_, hr, ?_, rfl⟩
  have e1 : (arr.count + 1).toNat = arr.count.toNat + 1 := by omega
  simp only [live, e1, Int.toNat_ofNat]
  exact ht

/-- Witness for C1: insertion of "x" at index 1 into the full three-slot
array holding "a", "b", "c": the array grows and the shift loop moves two
elements. -/
theorem arr_insert_spec_witness :
    ∃ arr1, arr_insert ⟨3, 3, [.str "a", .str "b", .str "c"]⟩ "x" 1 = .ok (none, arr1) ∧
      live arr1 = [.str "a", .str "x", .str "b", .str "c"] ∧ arr1.count = 4 :=
  arr_insert_spec ⟨3, 3, [.str "a", .str "b", .str "c"]⟩ "x" 1 (by decide) (by decide)
    (by decide) (by decide) (by decide) (by decide) (by decide)

/-! ## The left shift and the scan of `arr_remove` -/

/-- The left-shift loop over slots `j .. j + k - 1` stays inside a block
that has a slot `j + k`, and moves every slot of `j + 1 .. j + k` one place
down, leaving all other slots as they were. -/
theorem shift_left_ok : ∀ (k : Nat) (es : List Slot) (j : Nat), j + k < es.length →
    ∃ es1, shift_left es (j : Int) k = .ok es1 ∧ es1.length = es.length ∧
      ∀ t, es1[t]? = if j ≤ t ∧ t < j + k then es[t + 1]? else es[t]? := by
  intro k
  induction k with
  | zero =>
    intro es j _
    refine ⟨es, rfl, rfl, ?_⟩
    intro t
    have hno : ¬ (j ≤ t ∧ t < j) := by omega
    simp [hno]
  | succ k ih =>
    intro es j h
    have hlt : j < es.length := by omega
    have hlt1 : j + 1 < es.length := by omega
    have e1 : (j : Int) + 1 = ((j + 1 : Nat) : Int) := by push_cast; ring
    obtain ⟨es1, hs, hl, ht⟩ := ih (es.set j es[j + 1]) (j + 1) (by simp; omega)
    refine ⟨es1, ?_, by simpa using hl, ?_⟩
    · simp only [shift_left]
      rw [e1, slot_get_ok es (j + 1) hlt1]
      simp only [slot_set_ok es j _ hlt]
      exact hs
    · intro t
      rw [ht t]
      by_cases c1 : j + 1 ≤ t ∧ t < j + 1 + k
      · have c2 : j ≤ t ∧ t < j + (k + 1) := by omega
        have c3 : j ≠ t + 1 := by omega
        simp [c1, c2, List.getElem?_set_ne c3]
      · by_cases c4 : t = j
        · subst c4
          have c2 : t ≤ t ∧ t < t + (k + 1) := by omega
          simp [c1, c2, hlt, List.getElem?_eq_getElem hlt1]
        · have c2 : ¬ (j ≤ t ∧ t < j + (k + 1)) := by omega
          have c3 : j ≠ t := by omega
          simp [c1, c2, List.getElem?_set_ne c3]

/-- The scan passes over slots that point to strings different from the
one looked for. -/
theorem remove_scan_skip (arr : Array) (v : String) : ∀ (d i k : Nat),
    (∀ t, i ≤ t → t < i + d → ∃ s, arr.elements[t]? = some (Slot.str s) ∧ s ≠ v) →
    remove_scan arr v (i : Int) (d + k) = remove_scan arr v ((i + d : Nat) : Int) k := by
  intro d
  induction d with
  | zero => intro i k _; simp
  | succ d ih =>
    intro i k h
    obtain ⟨s, hs, hne⟩ := h i (by omega) (by omega)
    have e0 : d + 1 + k = (d + k) + 1 := by omega
    have e1 : (i : Int) + 1 = ((i + 1 : Nat) : Int) := by push_cast; ring
    have e2 : i + 1 + d = i + (d + 1) := by omega
    rw [e0]
    simp only [remove_scan, slot_str_ok arr.elements i s hs, if_neg hne]
    rw [e1, ih (i + 1) k (fun t h1 h2 => h t (by omega) (by omega)), e2]

/-- The live slots of an array whose `count` does not exceed the block. -/
theorem live_getElem? (arr : Array) (j : Nat) :
    (live arr)[j]? = if j < arr.count.toNat then arr.elements[j]? else none := by
  simp [live, List.getElem?_take]

/-- In an array whose live slots all point to strings, a live slot that is
not a pointer to `v` points to a string different from `v`. -/
theorem owned_slot (arr : Array) (halloc : Allocated arr) (hc : arr.count ≤ arr.capacity)
    (hown : Owned arr) (v : String) (t : Nat) (ht : t < arr.count.toNat)
    (hne : (live arr)[t]? ≠ some (Slot.str v)) :
    ∃ s, arr.elements[t]? = some (Slot.str s) ∧ s ≠ v := by
  unfold Allocated at halloc
  have hlen : t < arr.elements.length := by omega
  have hl : (live arr)[t]? = some arr.elements[t] := by
    rw [live_getElem?, if_pos ht, List.getElem?_eq_getElem hlen]
  have hmem : arr.elements[t] ∈ live arr := List.mem_iff_getElem?.mpr ⟨t, hl⟩
  have hj := hown _ hmem
  rw [hl] at hne
  cases hx : arr.elements[t] with
  | junk => exact absurd hx hj
  | str s =>
    refine ⟨s, by rw [List.getElem?_eq_getElem hlen, hx], ?_⟩
    intro hsv
    apply hne
    rw [hx, hsv]

/-- The whole of `arr_remove` on an array whose first pointer to `v` is at
the live index `k`: the resulting record, slot by slot. -/
theorem arr_remove_found (arr : Array) (v : String) (k : Nat)
    (halloc : Allocated arr) (hc : arr.count ≤ arr.capacity) (hown : Owned arr)
    (hk : (live arr)[k]? = some (Slot.str v))
    (hleast : ∀ j, j < k → (live arr)[j]? ≠ some (Slot.str v)) :
    ∃ es1, arr_remove arr v =
        .ok (none, { arr with elements := es1, count := arr.count - 1 }) ∧
      es1.length = arr.elements.length ∧ k < arr.count.toNat ∧
      ∀ t, es1[t]? = if k ≤ t ∧ t < arr.count.toNat - 1 then arr.elements[t + 1]?
        else (arr.elements.set k Slot.junk)[t]? := by
  have hkc : k < arr.count.toNat := by
    by_contra hcon
    rw [live_getElem?, if_neg hcon] at hk
    exact absurd hk (by simp)
  have hke : arr.elements[k]? = some (Slot.str v) := by
    rw [live_getElem?, if_pos hkc] at hk; exact hk
  have hal := halloc
  unfold Allocated at hal
  have hkl : k < arr.elements.length := by omega
  obtain ⟨es1, hs, hl, ht⟩ :=
    shift_left_ok (arr.count.toNat - 1 - k) (arr.elements.set k Slot.junk) k (by simp; omega)
  refine ⟨es1, ?_, by simpa using hl, hkc, ?_⟩
  · have e0 : arr.count.toNat = k + ((arr.count.toNat - 1 - k) + 1) := by omega
    have e1 : (arr.count - 1 - (k : Int)).toNat = arr.count.toNat - 1 - k := by omega
    have hskip := remove_scan_skip arr v k 0 ((arr.count.toNat - 1 - k) + 1)
      (fun t _ h2 => owned_slot arr halloc hc hown v t (by omega) (hleast t (by omega)))
    rw [arr_remove, e0]
    simp only [Nat.cast_zero, Nat.zero_add] at hskip
    rw [hskip]
    simp only [remove_scan, slot_str_ok arr.elements k v hke, if_true,
      slot_set_ok arr.elements k _ hkl, e1, hs]
  · intro t
    rw [ht t]
    by_cases c1 : k ≤ t ∧ t < arr.count.toNat - 1
    · have c2 : k ≤ t ∧ t < k + (arr.count.toNat - 1 - k) := by omega
      have c3 : k ≠ t + 1 := by omega
      simp [c1, c2, List.getElem?_set_ne c3]
    · have c2 : ¬ (k ≤ t ∧ t < k + (arr.count.toNat - 1 - k)) := by omega
      simp [c1, c2]

/-- The whole of `arr_remove` on an array whose first pointer to `v` is at
the live index `k`, in terms of the live sequence. -/
theorem arr_remove_live (arr : Array) (v : String) (k : Nat)
    (halloc : Allocated arr) (hc : arr.count ≤ arr.capacity) (hown : Owned arr)
    (hk : (live arr)[k]? = some (Slot.str v))
    (hleast : ∀ j, j < k → (live arr)[j]? ≠ some (Slot.str v)) :
    ∃ es1, arr_remove arr v =
        .ok (none, { arr with elements := es1, count := arr.count - 1 }) ∧
      es1.length = arr.elements.length ∧ k < arr.count.toNat ∧
      ∀ t, (live { arr with elements := es1, count := arr.count - 1 })[t]? =
        if t < k then (live arr)[t]? else (live arr)[t + 1]? := by
  obtain ⟨es1, hr, hl, hkc, ht⟩ := arr_remove_found arr v k halloc hc hown hk hleast
  have e1 : (arr.count - 1).toNat = arr.count.toNat - 1 := by omega
  refine ⟨es1, hr, hl, hkc, ?_⟩
  intro t
  rw [live_getElem?, live_getElem?, live_getElem?, ht t]
  simp only [e1]
  by_cases c1 : t < arr.count.toNat - 1
  · by_cases c2 : t < k
    · have c3 : ¬ (k ≤ t ∧ t < arr.count.toNat - 1) := by omega
      have c4 : k ≠ t := by omega
      have c5 : t < arr.count.toNat := by omega
      simp [c1, c2, c3, c5, List.getElem?_set_ne c4]
    · have c3 : k ≤ t ∧ t < arr.count.toNat - 1 := by omega
      have c5 : t + 1 < arr.count.toNat := by omega
      simp [c1, c2, c3, c5]
  · have c2 : ¬ (t < k) := by omega
    have c5 : ¬ (t + 1 < arr.count.toNat) := by omega
    simp [c1, c2, c5]

/-! ## C2 -/

/-- C2: when `k` is the least live index whose element equals `v`,
`arr_remove` returns without a NotFound report, `count` drops by one, the
live elements before `k` are unchanged, the live element at every `j` with
`k <= j < new count` is the old one at `j + 1`, so that every later
occurrence of `v` is still there one place down; the new live sequence is
the old one with position `k` erased. -/
theorem arr_remove_spec (arr : Array) (v : String) (k : Nat)
    (halloc : Allocated arr) (hc : arr.count ≤ arr.capacity)
    (hown : Owned arr)
    (hk : (live arr)[k]? = some (Slot.str v))
    (hleast : ∀ j, j < k → (live arr)[j]? ≠ some (Slot.str v)) :
    ∃ arr1, arr_remove arr v = .ok (none, arr1) ∧
      arr1.count = arr.count - 1 ∧
      (∀ j, j < k → (live arr1)[j]? = (live arr)[j]?) ∧
      (∀ j, k ≤ j → (j : Int) < arr1.count → (live arr1)[j]? = (live arr)[j + 1]?) ∧
      (∀ j, k < j → (live arr)[j]? = some (Slot.str v) →
        (live arr1)[j - 1]? = some (Slot.str v)) ∧
      live arr1 = (live arr).eraseIdx k := by
  obtain ⟨es1, hr, -, -, hpt⟩ := arr_remove_live arr v k halloc hc hown hk hleast
  refine ⟨{ arr with elements := es1, count := arr.count - 1 }, hr, rfl, ?_, ?_, ?_, ?_⟩
  · intro j hj
    rw [hpt j, if_pos hj]
  · intro j hj _
    rw [hpt j, if_neg (by omega)]
  · intro j hj hv
    have e2 : j - 1 + 1 = j := by omega
    rw [hpt (j - 1), if_neg (by omega), e2, hv]
  · apply List.ext_getElem?
    intro t
    rw [hpt t, List.getElem?_eraseIdx]

/-- Witness for C2: removal of "a" from the live sequence "b", "a",
"c", "a", whose first "a" is at index 1. -/
theorem arr_remove_spec_witness :
    ∃ arr1, arr_remove ⟨4, 4, [.str "b", .str "a", .str "c", .str "a"]⟩ "a"
        = .ok (none, arr1) ∧
      live arr1 = [.str "b", .str "c", .str "a"] := by
  obtain ⟨arr1, h1, -, -, -, -, h6⟩ :=
    arr_remove_spec ⟨4, 4, [.str "b", .str "a", .str "c", .str "a"]⟩ "a" 1
      (by decide) (by decide) (by decide) (by decide) (by decide)
  exact ⟨arr1, h1, h6⟩

/-! ## C3 -/

/-- C3: `arr_read` returns `NULL` with the IndexOutOfRange report when
`index < 0` or `index >= count`, and otherwise returns the live element at
`index` without a report; in both cases the array after the call is the
array before it. -/
theorem arr_read_spec (arr : Array) (index : Int)
    (halloc : Allocated arr) (hc : arr.count ≤ arr.capacity) (hown : Owned arr) :
    ((index < 0 ∨ index ≥ arr.count) →
      arr_read arr index = .ok (none, some Report.IndexOutOfRange, arr)) ∧
    (¬ (index < 0 ∨ index ≥ arr.count) →
      ∃ s, (live arr)[index.toNat]? = some (Slot.str s) ∧
        arr_read arr index = .ok (some s, none, arr)) := by
  constructor
  · intro h
    simp only [arr_read, h, if_true]
  · intro h
    obtain ⟨n, rfl⟩ := Int.eq_ofNat_of_zero_le (show 0 ≤ index by omega)
    have hn : n < arr.count.toNat := by omega
    have hal := halloc
    unfold Allocated at hal
    have hlen : n < arr.elements.length := by omega
    have hl : (live arr)[n]? = some arr.elements[n] := by
      rw [live_getElem?, if_pos hn, List.getElem?_eq_getElem hlen]
    have hj := hown _ (List.mem_iff_getElem?.mpr ⟨n, hl⟩)
    cases hx : arr.elements[n] with
    | junk => exact absurd hx hj
    | str s =>
      rw [hx] at hl
      have he : arr.elements[n]? = some (Slot.str s) := by
        rw [List.getElem?_eq_getElem hlen, hx]
      refine ⟨s, by simpa using hl, ?_⟩
      simp only [arr_read, h, if_false, slot_str_ok arr.elements n s he]

/-- Witness for C3: a read at index 1 of the live sequence "a", "b" held in
a block of four slots. -/
theorem arr_read_spec_witness :
    arr_read ⟨4, 2, [.str "a", .str "b", .junk, .junk]⟩ 1 =
      .ok (some "b", none, ⟨4, 2, [.str "a", .str "b", .junk, .junk]⟩) := by
  obtain ⟨s, h1, h2⟩ :=
    (arr_read_spec ⟨4, 2, [.str "a", .str "b", .junk, .junk]⟩ 1
      (by decide) (by decide) (by decide)).2 (by decide)
  have hs : s = "b" := by
    have h3 : some (Slot.str s) = some (Slot.str "b") := h1.symm
    injection h3 with h4
    injection h4
  rw [h2, hs]

/-! ## C4 -/

/-- C4: for `index < 0` or `index > count`, `arr_insert` reports
IndexOutOfRange and the array after the call is the array before it, with the
same capacity, count and slots, also when `count == capacity`. -/
theorem arr_insert_out_of_range (arr : Array) (v : String) (index : Int)
    (h : index < 0 ∨ index > arr.count) :
    arr_insert arr v index = .ok (some Report.IndexOutOfRange, arr) := by
  unfold arr_insert
  rw [if_pos h]

/-- Witness for C4: index 2 on the full one-slot array holding "a". -/
theorem arr_insert_out_of_range_witness :
    arr_insert ⟨1, 1, [.str "a"]⟩ "b" 2 =
      .ok (some Report.IndexOutOfRange, ⟨1, 1, [.str "a"]⟩) :=
  arr_insert_out_of_range ⟨1, 1, [.str "a"]⟩ "b" 2 (by decide)

/-- The scan of an array none of whose live elements equals `v` ends with
the NotFound report and without a write. -/
theorem remove_scan_absent (arr : Array) (v : String)
    (halloc : Allocated arr) (hc : arr.count ≤ arr.capacity) (hown : Owned arr)
    (habs : Slot.str v ∉ live arr) :
    remove_scan arr v 0 arr.count.toNat = .ok (some Report.NotFound, arr) := by
  have hskip := remove_scan_skip arr v arr.count.toNat 0 0 (by
    intro t _ h2
    apply owned_slot arr halloc hc hown v t (by omega)
    intro hmem
    exact habs (List.mem_iff_getElem?.mpr ⟨t, hmem⟩))
  simp only [Nat.add_zero, Nat.cast_zero, Nat.zero_add] at hskip
  rw [hskip]
  rfl

/-! ## C5 -/

/-- C5: when no live element equals `v` (the empty array included),
`arr_remove` reports NotFound and the array after the call is the array
before it. -/
theorem arr_remove_absent (arr : Array) (v : String)
    (halloc : Allocated arr) (hc : arr.count ≤ arr.capacity) (hown : Owned arr)
    (habs : Slot.str v ∉ live arr) :
    arr_remove arr v = .ok (some Report.NotFound, arr) := by
  unfold arr_remove
  exact remove_scan_absent arr v halloc hc hown habs

/-- Witness for C5: removal of "z" from the live sequence "a", "b". -/
theorem arr_remove_absent_witness :
    arr_remove ⟨2, 2, [.str "a", .str "b"]⟩ "z" =
      .ok (some Report.NotFound, ⟨2, 2, [.str "a", .str "b"]⟩) :=
  arr_remove_absent ⟨2, 2, [.str "a", .str "b"]⟩ "z"
    (by decide) (by decide) (by decide) (by decide)

/-! ## Reading a sequence after an insertion -/

/-- The entries of a list with `x` put in at position `p`. -/
theorem getElem?_put_in (L : List Slot) (p : Nat) (x : Slot) (hp : p ≤ L.length) (t : Nat) :
    (L.take p ++ [x] ++ L.drop p)[t]? =
      if t < p then L[t]? else if t = p then some x else L[t - 1]? := by
  have hlen : (L.take p).length = p := by simp; omega
  rw [List.append_assoc]
  rcases Nat.lt_trichotomy t p with c1 | c1 | c1
  · rw [List.getElem?_append_left (by omega), List.getElem?_take_of_lt c1, if_pos c1]
  · subst c1
    rw [List.getElem?_append_right (by omega), hlen]
    simp
  · obtain ⟨d, rfl⟩ : ∃ d, t = p + 1 + d := ⟨t - p - 1, by omega⟩
    have a1 : p + 1 + d - p = d + 1 := by omega
    have a2 : p + 1 + d - 1 = p + d := by omega
    have a3 : ¬ (p + 1 + d < p) := by omega
    have a4 : ¬ (p + 1 + d = p) := by omega
    rw [List.getElem?_append_right (by omega), hlen, a1, List.singleton_append,
      List.getElem?_cons_succ, List.getElem?_drop, if_neg a3, if_neg a4, a2]

/-- What a growth step that returns has done: `count` is as before; a
full array has the wrapped product as its new, positive capacity; an array
with a free slot is untouched. -/
theorem grow_if_full_inv (arr g : Array) (h : grow_if_full arr = .ok g) :
    g.count = arr.count ∧
    (arr.count = arr.capacity →
      g.capacity = int_wrap (arr.capacity * 2) ∧ 0 < g.capacity) ∧
    (arr.count ≠ arr.capacity → g = arr) := by
  unfold grow_if_full at h
  by_cases hfull : arr.count = arr.capacity
  · rw [if_pos hfull] at h
    unfold resize_array realloc at h
    by_cases hn : int_wrap (arr.capacity * 2) ≤ 0
    · simp only [hn, if_true] at h
      exact Except.noConfusion h
    · simp only [hn, if_false] at h
      injection h with h1
      subst h1
      exact ⟨rfl, fun _ => ⟨rfl, by simp only; omega⟩, fun hne => absurd hfull hne⟩
  · rw [if_neg hfull] at h
    injection h with h1
    subst h1
    exact ⟨rfl, fun hf => absurd hf hfull, fun _ => rfl⟩

/-- The growth step never changes `count`. -/
theorem grow_if_full_count (arr g : Array) (h : grow_if_full arr = .ok g) :
    g.count = arr.count :=
  (grow_if_full_inv arr g h).1

/-- A growth step that returns on an array with an `int` capacity and
`count <= capacity` was able to grow. -/
theorem can_grow_of_returns (arr g : Array)
    (hint : arr.capacity ≤ INT_MAX) (hc : arr.count ≤ arr.capacity)
    (h : grow_if_full arr = .ok g) : CanGrow arr := by
  by_cases hfull : arr.count = arr.capacity
  · right
    by_contra hbig
    rw [grow_if_full_exits arr hfull (by omega) hint] at h
    exact Except.noConfusion h
  · left
    omega

/-! ## C6 -/

/-- C6 as stated fails: the full array of `2^30` elements has
`capacity >= 1` and `count <= capacity`, the index 0 is a valid insertion
index, and no read follows the insertion: `arr_insert` exits in
`resize_array`. -/
theorem read_after_insert_fails_at_int_limit :
    Allocated (full_array 1073741824) ∧ 1 ≤ (full_array 1073741824).capacity ∧
    0 ≤ (full_array 1073741824).count ∧
    (full_array 1073741824).count ≤ (full_array 1073741824).capacity ∧
    ¬ ∃ arr1, arr_insert (full_array 1073741824) "b" 0 = .ok (none, arr1) ∧
      arr_read arr1 0 = .ok (some "b", none, arr1) := by
  have hwf := full_array_limit_wf
  refine ⟨hwf.1, hwf.2.2.2.1, hwf.2.2.1.1, hwf.2.2.1.2, ?_⟩
  rintro ⟨arr1, h, -⟩
  rw [full_array_limit_insert "b" 0 (le_refl _) hwf.2.2.1.1] at h
  exact Except.noConfusion h

/-- C6, amended: after `arr_insert` of `v` at a valid index `i` of an array
with `capacity >= 1`, `count <= capacity` and a free slot or a doubled
capacity that is an `int`, `arr_read` at `i` returns a string equal to `v`,
without a report. -/
theorem read_after_insert (arr : Array) (v : String) (i : Int)
    (halloc : Allocated arr) (hcap : 1 ≤ arr.capacity)
    (h0 : 0 ≤ arr.count) (hc : arr.count ≤ arr.capacity) (hgrow : CanGrow arr)
    (hi0 : 0 ≤ i) (hi : i ≤ arr.count) :
    ∃ arr1, arr_insert arr v i = .ok (none, arr1) ∧
      arr_read arr1 i = .ok (some v, none, arr1) := by
  obtain ⟨p, rfl⟩ := Int.eq_ofNat_of_zero_le hi0
  obtain ⟨es2, hr, -, ht⟩ := arr_insert_ok arr v p halloc hcap h0 hc hgrow hi
  refine ⟨_, hr, ?_⟩
  unfold Allocated at halloc
  have hp : p ≤ (arr.elements.take arr.count.toNat).length := by
    simp; omega
  have hslot : es2[p]? = some (Slot.str v) := by
    have h1 := getElem?_put_in (arr.elements.take arr.count.toNat) p (Slot.str v) hp p
    rw [← ht, List.getElem?_take_of_lt (by omega)] at h1
    simpa using h1
  have hguard : ¬ ((p : Int) < 0 ∨ (p : Int) ≥ arr.count + 1) := by omega
  simp only [arr_read, hguard, if_false, slot_str_ok es2 p v hslot]

/-- Witness for C6: "b" is put in at index 0 of the full one-slot array
holding "a" and read back. -/
theorem read_after_insert_witness :
    ∃ arr1, arr_insert ⟨1, 1, [.str "a"]⟩ "b" 0 = .ok (none, arr1) ∧
      arr_read arr1 0 = .ok (some "b", none, arr1) :=
  read_after_insert ⟨1, 1, [.str "a"]⟩ "b" 0 (by decide) (by decide) (by decide)
    (by decide) (by decide) (by decide) (by decide)

/-- For `count >= 0` the body of `arr_append` is the body of `arr_insert`
at index `count`: the guard passes and the shift loop has no iteration. -/
theorem arr_append_unfold (arr : Array) (v : String) (h0 : 0 ≤ arr.count) :
    arr_append arr v = arr_insert arr v arr.count := by
  have hguard : ¬ (arr.count < 0 ∨ arr.count > arr.count) := by omega
  unfold arr_append arr_insert
  rw [if_neg hguard]
  cases hg : grow_if_full arr with
  | error e => rfl
  | ok g =>
    have hgc := grow_if_full_count arr g hg
    have hk : (arr.count - arr.count).toNat = 0 := by omega
    simp only [hgc, hk, shift_right]

/-! ## Outcomes of the growing calls -/

/-- The whole of `arr_insert` at a valid index `p` of an array that can
grow: the array returned is again allocated, its `count` is one more, its
`capacity` is doubled exactly when the array was full, and its live sequence
is the old one with the new value put in at position `p`. -/
theorem arr_insert_live (arr : Array) (v : String) (p : Nat)
    (halloc : Allocated arr) (hcap : 1 ≤ arr.capacity)
    (h0 : 0 ≤ arr.count) (hc : arr.count ≤ arr.capacity) (hgrow : CanGrow arr)
    (hi : (p : Int) ≤ arr.count) :
    ∃ a1, arr_insert arr v (p : Int) = .ok (none, a1) ∧ Allocated a1 ∧
      a1.count = arr.count + 1 ∧
      a1.capacity = (if arr.count = arr.capacity then 2 * arr.capacity else arr.capacity) ∧
      live a1 = (live arr).take p ++ [Slot.str v] ++ (live arr).drop p := by
  obtain ⟨es2, hr, hlen, ht⟩ := arr_insert_ok arr v p halloc hcap h0 hc hgrow hi
  refine ⟨_, hr, hlen, rfl, rfl, ?_⟩
  have e1 : (arr.count + 1).toNat = arr.count.toNat + 1 := by omega
  simp only [live, e1]
  exact ht

/-- The whole of `arr_append` on an array of the data model that can grow. -/
theorem arr_append_live (arr : Array) (v : String)
    (halloc : Allocated arr) (hcap : 1 ≤ arr.capacity)
    (h0 : 0 ≤ arr.count) (hc : arr.count ≤ arr.capacity) (hgrow : CanGrow arr) :
    ∃ a1, arr_append arr v = .ok (none, a1) ∧ Allocated a1 ∧
      a1.count = arr.count + 1 ∧
      a1.capacity = (if arr.count = arr.capacity then 2 * arr.capacity else arr.capacity) ∧
      live a1 = live arr ++ [Slot.str v] := by
  obtain ⟨p, hp⟩ := Int.eq_ofNat_of_zero_le h0
  obtain ⟨a1, hr, hal, hcnt, hcp, hl⟩ :=
    arr_insert_live arr v p halloc hcap h0 hc hgrow (by omega)
  rw [← hp] at hr
  refine ⟨a1, by rw [arr_append_unfold arr v h0]; exact hr, hal, hcnt, hcp, ?_⟩
  unfold Allocated at halloc
  have hlen : (live arr).length = p := by simp [live]; omega
  rw [hl, List.take_of_length_le (by omega), List.drop_of_length_le (by omega),
    List.append_nil]

/-- The three outcomes of `arr_insert` on an array of the data model whose
capacity is an `int`: the report for an index out of range, the array with
the value put in when the array can grow, the exit in the growth step when it
cannot. -/
theorem arr_insert_cases (arr : Array) (v : String) (i : Int)
    (halloc : Allocated arr) (hcap : 1 ≤ arr.capacity) (hint : arr.capacity ≤ INT_MAX)
    (h0 : 0 ≤ arr.count) (hc : arr.count ≤ arr.capacity) :
    ((i < 0 ∨ i > arr.count) ∧
      arr_insert arr v i = .ok (some Report.IndexOutOfRange, arr)) ∨
    (0 ≤ i ∧ i ≤ arr.count ∧ CanGrow arr ∧
      ∃ a1, arr_insert arr v i = .ok (none, a1) ∧ Allocated a1 ∧
        a1.count = arr.count + 1 ∧
        a1.capacity =
          (if arr.count = arr.capacity then 2 * arr.capacity else arr.capacity) ∧
        live a1 = (live arr).take i.toNat ++ [Slot.str v] ++ (live arr).drop i.toNat) ∨
    (0 ≤ i ∧ i ≤ arr.count ∧ ¬ CanGrow arr ∧
      arr_insert arr v i = .error Fault.allocFailed) := by
  by_cases hg : i < 0 ∨ i > arr.count
  · exact Or.inl ⟨hg, by simp only [arr_insert, hg, if_true]⟩
  · have hi0 : 0 ≤ i := by omega
    have hi : i ≤ arr.count := by omega
    by_cases hgrow : CanGrow arr
    · obtain ⟨p, rfl⟩ := Int.eq_ofNat_of_zero_le hi0
      exact Or.inr (Or.inl ⟨hi0, hi, hgrow,
        arr_insert_live arr v p halloc hcap h0 hc hgrow hi⟩)
    · have hng := hgrow
      unfold CanGrow at hng
      exact Or.inr (Or.inr ⟨hi0, hi, hgrow,
        arr_insert_exits arr v i (by omega) (by omega) hint hi0 hi⟩)

/-- The two outcomes of `arr_append` on an array of the data model whose
capacity is an `int`. -/
theorem arr_append_cases (arr : Array) (v : String)
    (halloc : Allocated arr) (hcap : 1 ≤ arr.capacity) (hint : arr.capacity ≤ INT_MAX)
    (h0 : 0 ≤ arr.count) (hc : arr.count ≤ arr.capacity) :
    (CanGrow arr ∧
      ∃ a1, arr_append arr v = .ok (none, a1) ∧ Allocated a1 ∧
        a1.count = arr.count + 1 ∧
        a1.capacity =
          (if arr.count = arr.capacity then 2 * arr.capacity else arr.capacity) ∧
        live a1 = live arr ++ [Slot.str v]) ∨
    (¬ CanGrow arr ∧ arr_append arr v = .error Fault.allocFailed) := by
  by_cases hgrow : CanGrow arr
  · exact Or.inl ⟨hgrow, arr_append_live arr v halloc hcap h0 hc hgrow⟩
  · have hng := hgrow
    unfold CanGrow at hng
    exact Or.inr ⟨hgrow, arr_append_exits arr v (by omega) (by omega) hint⟩

/-- The two outcomes of `resize_array` on an `int` capacity `>= 1`. -/
theorem resize_array_cases (arr : Array) (hcap : 1 ≤ arr.capacity)
    (hint : arr.capacity ≤ INT_MAX) :
    (arr.capacity * 2 ≤ INT_MAX ∧
      ∃ es, resize_array arr =
        .ok { arr with elements := es, capacity := arr.capacity * 2 }) ∨
    (INT_MAX < arr.capacity * 2 ∧ resize_array arr = .error Fault.allocFailed) := by
  by_cases hfit : arr.capacity * 2 ≤ INT_MAX
  · exact Or.inl ⟨hfit, _, resize_array_ok arr hcap hfit⟩
  · exact Or.inr ⟨by omega, resize_array_exits arr (by omega) hint⟩

/-! ## C7 -/

/-- C8 as stated fails: the full array of `2^30` copies of "a" has
`capacity >= 1` and `count <= capacity`, no live element equals "b" and 0 is
a valid index, and the pair of calls restores nothing: `arr_insert` exits in
`resize_array`. -/
theorem roundtrip_fails_at_int_limit :
    Allocated (full_array 1073741824) ∧ 1 ≤ (full_array 1073741824).capacity ∧
    0 ≤ (full_array 1073741824).count ∧
    (full_array 1073741824).count ≤ (full_array 1073741824).capacity ∧
    Owned (full_array 1073741824) ∧ Slot.str "b" ∉ live (full_array 1073741824) ∧
    ¬ ∃ arr1 arr2, arr_insert (full_array 1073741824) "b" 0 = .ok (none, arr1) ∧
      arr_remove arr1 "b" = .ok (none, arr2) ∧
      live arr2 = live (full_array 1073741824) ∧
      arr2.count = (full_array 1073741824).count := by
  have hwf := full_array_limit_wf
  refine ⟨hwf.1, hwf.2.2.2.1, hwf.2.2.1.1, hwf.2.2.1.2, hwf.2.1,
    full_array_absent _ "b" (by decide), ?_⟩
  rintro ⟨arr1, arr2, h, -⟩
  rw [full_array_limit_insert "b" 0 (le_refl _) hwf.2.2.1.1] at h
  exact Except.noConfusion h

/-- C8, amended: when the array has a free slot or a doubled capacity that
is an `int`, and no live element of it equals `v`, `arr_insert` of `v` at a
valid index followed by `arr_remove` of `v` returns twice without a report
and leaves the live sequence and `count` as they were before the
insertion. -/
theorem insert_remove_roundtrip (arr : Array) (v : String) (i : Int)
    (halloc : Allocated arr) (hcap : 1 ≤ arr.capacity)
    (h0 : 0 ≤ arr.count) (hc : arr.count ≤ arr.capacity) (hgrow : CanGrow arr)
    (hown : Owned arr)
    (hi0 : 0 ≤ i) (hi : i ≤ arr.count) (huniq : Slot.str v ∉ live arr) :
    ∃ arr1 arr2, arr_insert arr v i = .ok (none, arr1) ∧
      arr_remove arr1 v = .ok (none, arr2) ∧
      live arr2 = live arr ∧ arr2.count = arr.count := by
  obtain ⟨p, rfl⟩ := Int.eq_ofNat_of_zero_le hi0
  obtain ⟨es2, hr, hlen2, ht⟩ := arr_insert_ok arr v p halloc hcap h0 hc hgrow hi
  generalize harr1 : ({ capacity := if arr.count = arr.capacity then 2 * arr.capacity
      else arr.capacity, count := arr.count + 1, elements := es2 } : Array) = arr1 at hr
  have hcnt1 : arr1.count = arr.count + 1 := by rw [← harr1]
  have hel1 : arr1.elements = es2 := by rw [← harr1]
  have hcap1 : arr1.capacity =
      (if arr.count = arr.capacity then 2 * arr.capacity else arr.capacity) := by rw [← harr1]
  have hal := halloc
  unfold Allocated at hal
  have e1 : (arr.count + 1).toNat = arr.count.toNat + 1 := by omega
  have hlive1 : live arr1 = (live arr).take p ++ [Slot.str v] ++ (live arr).drop p := by
    simp only [live, hcnt1, hel1, e1]
    exact ht
  have hpL : p ≤ (live arr).length := by
    simp [live]; omega
  have hget : ∀ t, (live arr1)[t]? =
      if t < p then (live arr)[t]? else if t = p then some (Slot.str v)
      else (live arr)[t - 1]? := by
    intro t
    rw [hlive1]
    exact getElem?_put_in (live arr) p (Slot.str v) hpL t
  have halloc1 : Allocated arr1 := by
    unfold Allocated
    rw [hel1, hcap1]
    exact hlen2
  have hc1 : arr1.count ≤ arr1.capacity := by
    rw [hcnt1, hcap1]
    split_ifs <;> omega
  have hown1 : Owned arr1 := by
    intro x hx
    rw [hlive1] at hx
    simp only [List.mem_append, List.mem_singleton] at hx
    rcases hx with (hx | hx) | hx
    · exact hown x (List.mem_of_mem_take hx)
    · rw [hx]; exact fun h => Slot.noConfusion h
    · exact hown x (List.mem_of_mem_drop hx)
  have hk : (live arr1)[p]? = some (Slot.str v) := by
    rw [hget p]; simp
  have hleast : ∀ j, j < p → (live arr1)[j]? ≠ some (Slot.str v) := by
    intro j hj hcon
    rw [hget j, if_pos hj] at hcon
    exact huniq (List.mem_iff_getElem?.mpr ⟨j, hcon⟩)
  obtain ⟨es1, hr2, -, -, hpt⟩ := arr_remove_live arr1 v p halloc1 hc1 hown1 hk hleast
  refine ⟨arr1, { arr1 with elements := es1, count := arr1.count - 1 }, hr, hr2, ?_, ?_⟩
  · apply List.ext_getElem?
    intro t
    rw [hpt t]
    by_cases c1 : t < p
    · rw [if_pos c1, hget t, if_pos c1]
    · have c2 : ¬ (t + 1 < p) := by omega
      have c3 : ¬ (t + 1 = p) := by omega
      rw [if_neg c1, hget (t + 1), if_neg c2, if_neg c3, Nat.add_sub_cancel]
  · simp only [hcnt1]; omega

/-- Witness for C8: "b" is put in at index 1 of the live sequence "a", "c"
held in a block of two slots, and removed again. -/
theorem insert_remove_roundtrip_witness :
    ∃ arr1 arr2, arr_insert ⟨2, 2, [.str "a", .str "c"]⟩ "b" 1 = .ok (none, arr1) ∧
      arr_remove arr1 "b" = .ok (none, arr2) ∧
      live arr2 = live ⟨2, 2, [.str "a", .str "c"]⟩ ∧
      arr2.count = (⟨2, 2, [.str "a", .str "c"]⟩ : Array).count :=
  insert_remove_roundtrip ⟨2, 2, [.str "a", .str "c"]⟩ "b" 1 (by decide) (by decide)
    (by decide) (by decide) (by decide) (by decide) (by decide) (by decide) (by decide)

/-! ## Totality of the read-only loops and of the search -/

/-- Every live slot of an array that satisfies the invariants of the data
model points to a string. -/
theorem live_slot_str (arr : Array) (halloc : Allocated arr) (hc : arr.count ≤ arr.capacity)
    (hown : Owned arr) (n : Nat) (hn : n < arr.count.toNat) :
    ∃ s, arr.elements[n]? = some (Slot.str s) := by
  unfold Allocated at halloc
  have hlen : n < arr.elements.length := by omega
  have hl : (live arr)[n]? = some arr.elements[n] := by
    rw [live_getElem?, if_pos hn, List.getElem?_eq_getElem hlen]
  have hj := hown _ (List.mem_iff_getElem?.mpr ⟨n, hl⟩)
  cases hx : arr.elements[n] with
  | junk => exact absurd hx hj
  | str s => exact ⟨s, by rw [List.getElem?_eq_getElem hlen, hx]⟩

/-- The print loop returns when the slots it visits point to strings. -/
theorem print_loop_ok (arr : Array) : ∀ (k i : Nat) (out : String),
    (∀ t, i ≤ t → t < i + k → ∃ s, arr.elements[t]? = some (Slot.str s)) →
    ∃ out1, print_loop arr out (i : Int) k = .ok out1 := by
  intro k
  induction k with
  | zero => intro i out _; exact ⟨out, rfl⟩
  | succ k ih =>
    intro i out h
    obtain ⟨s, hs⟩ := h i (by omega) (by omega)
    have e1 : (i : Int) + 1 = ((i + 1 : Nat) : Int) := by push_cast; ring
    simp only [print_loop, slot_str_ok arr.elements i s hs, e1]
    exact ih (i + 1) _ (fun t h1 h2 => h t (by omega) (by omega))

/-- A value that occurs in the live sequence has a least live index. -/
theorem least_live_index (arr : Array) (v : String) (hmem : Slot.str v ∈ live arr) :
    ∃ k : Nat, (live arr)[k]? = some (Slot.str v) ∧
      ∀ j : Nat, j < k → (live arr)[j]? ≠ some (Slot.str v) := by
  have hex : ∃ k : Nat, (live arr)[k]? = some (Slot.str v) := List.mem_iff_getElem?.mp hmem
  exact ⟨Nat.find hex, Nat.find_spec hex, fun j hj => Nat.find_min hex hj⟩

/-! ## C9 -/

/-- C9: `0 <= count <= capacity` holds for the array `create_array` returns
for every requested capacity `c >= 1`; on an array with an `int` capacity
`>= 1` that satisfies it, `arr_read`, `arr_remove` and `arr_print` return
(with or without a report) an array that satisfies it, and every array that
`arr_insert`, `arr_append` or `resize_array` returns (with or without a
report) satisfies it.  The three growing calls do return when the growth
cannot fail: `arr_insert` and `arr_append` when there is a free slot or the
doubled capacity is an `int`, `resize_array` when the doubled capacity is an
`int`. -/
theorem count_inv_preserved (arr : Array) (c : Int) (v : String) (i : Int)
    (hc1 : 1 ≤ c) (halloc : Allocated arr) (hown : Owned arr)
    (hcap : 1 ≤ arr.capacity) (hint : arr.capacity ≤ INT_MAX) (hinv : CountInv arr) :
    (∃ a, create_array c = .ok a ∧ CountInv a) ∧
    (∃ r, arr_read arr i = .ok r ∧ CountInv r.2.2) ∧
    (∀ r, arr_insert arr v i = .ok r → CountInv r.2) ∧
    (∀ r, arr_append arr v = .ok r → CountInv r.2) ∧
    (∃ r, arr_remove arr v = .ok r ∧ CountInv r.2) ∧
    (∀ r, resize_array arr = .ok r → CountInv r) ∧
    (∃ r, arr_print arr = .ok r ∧ CountInv r.2) ∧
    (CanGrow arr → (∃ r, arr_insert arr v i = .ok r) ∧ (∃ r, arr_append arr v = .ok r)) ∧
    (arr.capacity * 2 ≤ INT_MAX → ∃ r, resize_array arr = .ok r) := by
  have h0 : 0 ≤ arr.count := hinv.1
  have hc : arr.count ≤ arr.capacity := hinv.2
  have hstep : ∀ a1 : Array, a1.count = arr.count + 1 →
      a1.capacity = (if arr.count = arr.capacity then 2 * arr.capacity else arr.capacity) →
      CountInv a1 := by
    intro a1 h1 h2
    unfold CountInv
    rw [h1, h2]
    split_ifs <;> omega
  refine ⟨?_, ?_, ?_, ?_, ?_, ?_, ?_, ?_, ?_⟩
  · have hneg : ¬ (c < 0) := by omega
    refine ⟨{ capacity := c, count := 0, elements := List.replicate c.toNat Slot.junk },
      by simp only [create_array, hneg, if_false], ?_⟩
    unfold CountInv
    simp only
    omega
  · by_cases hg : i < 0 ∨ i ≥ arr.count
    · exact ⟨(none, some Report.IndexOutOfRange, arr),
        by simp only [arr_read, hg, if_true], hinv⟩
    · obtain ⟨n, rfl⟩ := Int.eq_ofNat_of_zero_le (show 0 ≤ i by omega)
      obtain ⟨s, hs⟩ := live_slot_str arr halloc hc hown n (by omega)
      exact ⟨(some s, none, arr),
        by simp only [arr_read, hg, if_false, slot_str_ok arr.elements n s hs], hinv⟩
  · intro r hr
    rcases arr_insert_cases arr v i halloc hcap hint h0 hc with
      ⟨-, h⟩ | ⟨-, -, -, a1, h, -, h1, h2, -⟩ | ⟨-, -, -, h⟩
    · rw [h] at hr
      injection hr with hr1
      rw [← hr1]
      exact hinv
    · rw [h] at hr
      injection hr with hr1
      rw [← hr1]
      exact hstep a1 h1 h2
    · rw [h] at hr
      exact Except.noConfusion hr
  · intro r hr
    rcases arr_append_cases arr v halloc hcap hint h0 hc with
      ⟨-, a1, h, -, h1, h2, -⟩ | ⟨-, h⟩
    · rw [h] at hr
      injection hr with hr1
      rw [← hr1]
      exact hstep a1 h1 h2
    · rw [h] at hr
      exact Except.noConfusion hr
  · by_cases hmem : Slot.str v ∈ live arr
    · obtain ⟨k, hk, hleast⟩ := least_live_index arr v hmem
      obtain ⟨es1, hr, -, hkc, -⟩ := arr_remove_live arr v k halloc hc hown hk hleast
      refine ⟨_, hr, ?_⟩
      unfold CountInv
      simp only
      omega
    · refine ⟨(some Report.NotFound, arr), ?_, hinv⟩
      unfold arr_remove
      exact remove_scan_absent arr v halloc hc hown hmem
  · intro r hr
    rcases resize_array_cases arr hcap hint with ⟨-, es, h⟩ | ⟨-, h⟩
    · rw [h] at hr
      injection hr with hr1
      rw [← hr1]
      unfold CountInv
      simp only
      omega
    · rw [h] at hr
      exact Except.noConfusion hr
  · obtain ⟨out, ho⟩ := print_loop_ok arr arr.count.toNat 0 "["
      (fun t _ h2 => live_slot_str arr halloc hc hown t (by omega))
    simp only [Nat.cast_zero] at ho
    exact ⟨(out ++ "]\n", arr), by simp only [arr_print, ho], hinv⟩
  · intro hgrow
    constructor
    · rcases arr_insert_cases arr v i halloc hcap hint h0 hc with
        ⟨-, h⟩ | ⟨-, -, -, a1, h, -⟩ | ⟨-, -, hng, -⟩
      · exact ⟨_, h⟩
      · exact ⟨_, h⟩
      · exact absurd hgrow hng
    · obtain ⟨a1, h, -⟩ := arr_append_live arr v halloc hcap h0 hc hgrow
      exact ⟨_, h⟩
  · intro hfit
    exact ⟨_, resize_array_ok arr hcap hfit⟩

/-- Witness for C9: the requested capacity 1, and the full two-slot array
holding "a", "b" with the value "a" and the index 1. -/
theorem count_inv_preserved_witness :
    (∃ a, create_array 1 = .ok a ∧ CountInv a) ∧
    (∃ r, arr_read ⟨2, 2, [.str "a", .str "b"]⟩ 1 = .ok r ∧ CountInv r.2.2) ∧
    (∃ r, arr_insert ⟨2, 2, [.str "a", .str "b"]⟩ "a" 1 = .ok r ∧ CountInv r.2) ∧
    (∃ r, arr_append ⟨2, 2, [.str "a", .str "b"]⟩ "a" = .ok r ∧ CountInv r.2) ∧
    (∃ r, arr_remove ⟨2, 2, [.str "a", .str "b"]⟩ "a" = .ok r ∧ CountInv r.2) ∧
    (∃ r, resize_array ⟨2, 2, [.str "a", .str "b"]⟩ = .ok r ∧ CountInv r) ∧
    (∃ r, arr_print ⟨2, 2, [.str "a", .str "b"]⟩ = .ok r ∧ CountInv r.2) := by
  obtain ⟨h1, h2, h3, h4, h5, h6, h7, h8, h9⟩ :=
    count_inv_preserved ⟨2, 2, [.str "a", .str "b"]⟩ 1 "a" 1 (by decide) (by decide)
      (by decide) (by decide) (by decide) (by decide)
  obtain ⟨⟨r1, hr1⟩, ⟨r2, hr2⟩⟩ := h8 (by decide)
  obtain ⟨r3, hr3⟩ := h9 (by decide)
  exact ⟨h1, h2, ⟨r1, hr1, h3 r1 hr1⟩, ⟨r2, hr2, h4 r2 hr2⟩, h5, ⟨r3, hr3, h6 r3 hr3⟩, h7⟩

/-! ## C10 -/

/-- C10: on an array with an `int` capacity `>= 1` and `0 <= count <= capacity`,
every call of `arr_insert` and every call of `arr_append` that returns
without a report leaves `capacity` equal to twice the old `capacity` exactly
when `count == capacity` held before the call, and equal to the old
`capacity` otherwise.  Such a call does return without a report, for a valid
index, when the array has a free slot or its doubled capacity is an `int`. -/
theorem growth_is_doubling_when_full (arr : Array) (v : String) (i : Int)
    (halloc : Allocated arr) (hcap : 1 ≤ arr.capacity) (hint : arr.capacity ≤ INT_MAX)
    (h0 : 0 ≤ arr.count) (hc : arr.count ≤ arr.capacity) :
    (∀ a1, arr_insert arr v i = .ok (none, a1) →
      (a1.capacity = 2 * arr.capacity ↔ arr.count = arr.capacity) ∧
      (arr.count ≠ arr.capacity → a1.capacity = arr.capacity)) ∧
    (∀ a2, arr_append arr v = .ok (none, a2) →
      (a2.capacity = 2 * arr.capacity ↔ arr.count = arr.capacity) ∧
      (arr.count ≠ arr.capacity → a2.capacity = arr.capacity)) ∧
    (CanGrow arr → 0 ≤ i → i ≤ arr.count →
      (∃ a1, arr_insert arr v i = .ok (none, a1)) ∧
      (∃ a2, arr_append arr v = .ok (none, a2))) := by
  have hcases : ∀ a1 : Array,
      a1.capacity = (if arr.count = arr.capacity then 2 * arr.capacity else arr.capacity) →
      (a1.capacity = 2 * arr.capacity ↔ arr.count = arr.capacity) ∧
      (arr.count ≠ arr.capacity → a1.capacity = arr.capacity) := by
    intro a1 h
    constructor
    · constructor
      · intro h2
        by_contra hne
        rw [if_neg hne] at h
        omega
      · intro hfull
        rw [h, if_pos hfull]
    · intro hne
      rw [h, if_neg hne]
  refine ⟨?_, ?_, ?_⟩
  · intro a1 hr
    rcases arr_insert_cases arr v i halloc hcap hint h0 hc with
      ⟨-, h⟩ | ⟨-, -, -, a, h, -, -, h2, -⟩ | ⟨-, -, -, h⟩
    · rw [h] at hr
      injection hr with hr1
      injection hr1 with hr2
      exact Option.noConfusion hr2
    · rw [h] at hr
      injection hr with hr1
      injection hr1 with _ hr3
      rw [← hr3]
      exact hcases a h2
    · rw [h] at hr
      exact Except.noConfusion hr
  · intro a2 hr
    rcases arr_append_cases arr v halloc hcap hint h0 hc with
      ⟨-, a, h, -, -, h2, -⟩ | ⟨-, h⟩
    · rw [h] at hr
      injection hr with hr1
      injection hr1 with _ hr3
      rw [← hr3]
      exact hcases a h2
    · rw [h] at hr
      exact Except.noConfusion hr
  · intro hgrow hi0 hi
    obtain ⟨p, rfl⟩ := Int.eq_ofNat_of_zero_le hi0
    obtain ⟨a1, h1, -⟩ := arr_insert_live arr v p halloc hcap h0 hc hgrow hi
    obtain ⟨a2, h2, -⟩ := arr_append_live arr v halloc hcap h0 hc hgrow
    exact ⟨⟨a1, h1⟩, ⟨a2, h2⟩⟩

/-- Witness for C10: the full two-slot array holding "a", "b", whose
capacity becomes 4 under either call. -/
theorem growth_is_doubling_when_full_witness :
    (∃ a1, arr_insert ⟨2, 2, [.str "a", .str "b"]⟩ "c" 0 = .ok (none, a1) ∧ a1.capacity = 4) ∧
    (∃ a2, arr_append ⟨2, 2, [.str "a", .str "b"]⟩ "c" = .ok (none, a2) ∧ a2.capacity = 4) := by
  obtain ⟨h1, h2, h3⟩ :=
    growth_is_doubling_when_full ⟨2, 2, [.str "a", .str "b"]⟩ "c" 0
      (by decide) (by decide) (by decide) (by decide) (by decide)
  obtain ⟨⟨a1, ha1⟩, ⟨a2, ha2⟩⟩ := h3 (by decide) (by decide) (by decide)
  exact ⟨⟨a1, ha1, (h1 a1 ha1).1.mpr rfl⟩, ⟨a2, ha2, (h2 a2 ha2).1.mpr rfl⟩⟩

/-! ## C13 -/

/-- The scan of `arr_remove` never writes the `capacity` field. -/
theorem remove_scan_capacity (arr : Array) (v : String) : ∀ (k : Nat) (i : Int)
    (r : Option Report × Array), remove_scan arr v i k = .ok r →
    r.2.capacity = arr.capacity := by
  intro k
  induction k with
  | zero =>
    intro i r h
    simp only [remove_scan] at h
    injection h with h1
    rw [← h1]
  | succ k ih =>
    intro i r h
    simp only [remove_scan] at h
    split at h
    · exact absurd h (by simp)
    · split at h
      · split at h
        · exact absurd h (by simp)
        · split at h
          · exact absurd h (by simp)
          · injection h with h1
            rw [← h1]
      · exact ih _ _ h

/-- C13: `arr_remove` leaves `capacity` as it was, whether or not the value
is found (for every record, whenever the call returns, and it does return on
an array of the data model); and on an array of the data model `arr_read`,
`arr_remove` and `arr_print` return an array whose `capacity` is not
smaller, and every array that `arr_insert`, `arr_append` or `resize_array`
returns has a `capacity` that is not smaller.  The growing calls
`arr_insert` and `arr_append` do return when the array has a free slot or
its doubled capacity is an `int`. -/
theorem capacity_never_reduced (arr : Array) (v : String) (i : Int) :
    (∀ r, arr_remove arr v = .ok r → r.2.capacity = arr.capacity) ∧
    (WellFormed arr →
      (∃ r, arr_remove arr v = .ok r ∧ r.2.capacity = arr.capacity) ∧
      (∃ r, arr_read arr i = .ok r ∧ arr.capacity ≤ r.2.2.capacity) ∧
      (∀ r, arr_insert arr v i = .ok r → arr.capacity ≤ r.2.capacity) ∧
      (∀ r, arr_append arr v = .ok r → arr.capacity ≤ r.2.capacity) ∧
      (∀ r, resize_array arr = .ok r → arr.capacity ≤ r.capacity) ∧
      (∃ r, arr_print arr = .ok r ∧ arr.capacity ≤ r.2.capacity) ∧
      (CanGrow arr →
        (∃ r, arr_insert arr v i = .ok r) ∧ (∃ r, arr_append arr v = .ok r))) := by
  have hrem : ∀ r, arr_remove arr v = .ok r → r.2.capacity = arr.capacity :=
    fun r h => remove_scan_capacity arr v _ _ r h
  refine ⟨hrem, ?_⟩
  rintro ⟨halloc, hown, ⟨h0, hc⟩, hcap, hint⟩
  have hstep : ∀ a1 : Array,
      a1.capacity = (if arr.count = arr.capacity then 2 * arr.capacity else arr.capacity) →
      arr.capacity ≤ a1.capacity := by
    intro a1 h2
    rw [h2]
    split_ifs <;> omega
  refine ⟨?_, ?_, ?_, ?_, ?_, ?_, ?_⟩
  · by_cases hmem : Slot.str v ∈ live arr
    · obtain ⟨k, hk, hleast⟩ := least_live_index arr v hmem
      obtain ⟨es1, hr, -, -, -⟩ := arr_remove_live arr v k halloc hc hown hk hleast
      exact ⟨_, hr, rfl⟩
    · refine ⟨(some Report.NotFound, arr), ?_, rfl⟩
      unfold arr_remove
      exact remove_scan_absent arr v halloc hc hown hmem
  · by_cases hg : i < 0 ∨ i ≥ arr.count
    · exact ⟨(none, some Report.IndexOutOfRange, arr),
        by simp only [arr_read, hg, if_true], le_refl _⟩
    · obtain ⟨n, rfl⟩ := Int.eq_ofNat_of_zero_le (show 0 ≤ i by omega)
      obtain ⟨s, hs⟩ := live_slot_str arr halloc hc hown n (by omega)
      exact ⟨(some s, none, arr),
        by simp only [arr_read, hg, if_false, slot_str_ok arr.elements n s hs], le_refl _⟩
  · intro r hr
    rcases arr_insert_cases arr v i halloc hcap hint h0 hc with
      ⟨-, h⟩ | ⟨-, -, -, a1, h, -, -, h2, -⟩ | ⟨-, -, -, h⟩
    · rw [h] at hr
      injection hr with hr1
      rw [← hr1]
    · rw [h] at hr
      injection hr with hr1
      rw [← hr1]
      exact hstep a1 h2
    · rw [h] at hr
      exact Except.noConfusion hr
  · intro r hr
    rcases arr_append_cases arr v halloc hcap hint h0 hc with
      ⟨-, a1, h, -, -, h2, -⟩ | ⟨-, h⟩
    · rw [h] at hr
      injection hr with hr1
      rw [← hr1]
      exact hstep a1 h2
    · rw [h] at hr
      exact Except.noConfusion hr
  · intro r hr
    rcases resize_array_cases arr hcap hint with ⟨-, es, h⟩ | ⟨-, h⟩
    · rw [h] at hr
      injection hr with hr1
      rw [← hr1]
      simp only
      omega
    · rw [h] at hr
      exact Except.noConfusion hr
  · obtain ⟨out, ho⟩ := print_loop_ok arr arr.count.toNat 0 "["
      (fun t _ h2 => live_slot_str arr halloc hc hown t (by omega))
    simp only [Nat.cast_zero] at ho
    exact ⟨(out ++ "]\n", arr), by simp only [arr_print, ho], le_refl _⟩
  · intro hgrow
    constructor
    · rcases arr_insert_cases arr v i halloc hcap hint h0 hc with
        ⟨-, h⟩ | ⟨-, -, -, a1, h, -⟩ | ⟨-, -, hng, -⟩
      · exact ⟨_, h⟩
      · exact ⟨_, h⟩
      · exact absurd hgrow hng
    · obtain ⟨a1, h, -⟩ := arr_append_live arr v halloc hcap h0 hc hgrow
      exact ⟨_, h⟩

/-- Witness for C13: the full two-slot array holding "a", "b", with the
value "a" and the index 0. -/
theorem capacity_never_reduced_witness :
    (∃ r, arr_remove ⟨2, 2, [.str "a", .str "b"]⟩ "a" = .ok r ∧ r.2.capacity = 2) ∧
    (∃ r, arr_insert ⟨2, 2, [.str "a", .str "b"]⟩ "a" 0 = .ok r ∧ (2 : Int) ≤ r.2.capacity) := by
  have h := (capacity_never_reduced ⟨2, 2, [.str "a", .str "b"]⟩ "a" 0).2 (by decide)
  obtain ⟨⟨r, hr⟩, -⟩ := h.2.2.2.2.2.2 (by decide)
  exact ⟨h.1, ⟨r, hr, h.2.2.1 r hr⟩⟩

/-! ## C14 -/

/-- C14: for every requested capacity `c >= 1`, `create_array` returns an
array with `count = 0`, `capacity = c`, a block of exactly `c` slots and no
live element, and `arr_read` on it reports IndexOutOfRange for every index. -/
theorem create_array_spec (c : Int) (hc : 1 ≤ c) :
    ∃ a, create_array c = .ok a ∧ a.count = 0 ∧ a.capacity = c ∧
      (a.elements.length : Int) = c ∧ live a = [] ∧
      ∀ i, arr_read a i = .ok (none, some Report.IndexOutOfRange, a) := by
  have hneg : ¬ (c < 0) := by omega
  refine ⟨{ capacity := c, count := 0, elements := List.replicate c.toNat Slot.junk },
    by simp only [create_array, hneg, if_false], rfl, rfl, ?_, ?_, ?_⟩
  · simp only [List.length_replicate]
    omega
  · simp [live]
  · intro i
    have hg : i < 0 ∨ i ≥ 0 := by omega
    simp only [arr_read, hg, if_true]

/-- Witness for C14: the requested capacity 3. -/
theorem create_array_spec_witness :
    ∃ a, create_array 3 = .ok a ∧ a.count = 0 ∧ a.capacity = 3 ∧
      (a.elements.length : Int) = 3 ∧ live a = [] ∧
      ∀ i, arr_read a i = .ok (none, some Report.IndexOutOfRange, a) :=
  create_array_spec 3 (by decide)

/-! ## C15 -/

/-- C15: the scenario of `main`, step by step, from `create_array(1)`: each
call returns without a report and the live sequence after it is the one
listed. -/
theorem main_scenario :
    ∃ a0 a1 a2 a3 a4 a5,
      create_array 1 = .ok a0 ∧
      arr_insert a0 "STRING1" 0 = .ok (none, a1) ∧
      live a1 = [.str "STRING1"] ∧
      arr_append a1 "STRING4" = .ok (none, a2) ∧
      live a2 = [.str "STRING1", .str "STRING4"] ∧
      arr_insert a2 "STRING2" 0 = .ok (none, a3) ∧
      live a3 = [.str "STRING2", .str "STRING1", .str "STRING4"] ∧
      arr_insert a3 "STRING3" 1 = .ok (none, a4) ∧
      live a4 = [.str "STRING2", .str "STRING3", .str "STRING1", .str "STRING4"] ∧
      arr_remove a4 "STRING3" = .ok (none, a5) ∧
      live a5 = [.str "STRING2", .str "STRING1", .str "STRING4"] :=
  ⟨⟨1, 0, [.junk]⟩,
   ⟨1, 1, [.str "STRING1"]⟩,
   ⟨2, 2, [.str "STRING1", .str "STRING4"]⟩,
   ⟨4, 3, [.str "STRING2", .str "STRING1", .str "STRING4", .junk]⟩,
   ⟨4, 4, [.str "STRING2", .str "STRING3", .str "STRING1", .str "STRING4"]⟩,
   ⟨4, 3, [.str "STRING2", .str "STRING1", .str "STRING4", .str "STRING4"]⟩,
   rfl, rfl, rfl, rfl, rfl, rfl, rfl, rfl, rfl, rfl, rfl⟩

/-! ## The text written by `arr_print` -/

/-- The accumulator of `String.intercalate` can be split off. -/
theorem intercalate_go_append (sep : String) : ∀ (ys : List String) (acc c : String),
    String.intercalate.go (acc ++ c) sep ys = acc ++ String.intercalate.go c sep ys := by
  intro ys
  induction ys with
  | nil => intro acc c; rfl
  | cons y ys ih =>
    intro acc c
    simp only [String.intercalate.go]
    rw [String.append_assoc, String.append_assoc, ih acc (c ++ (sep ++ y)),
      String.append_assoc]

/-- The print loop over the last `ys.length` live slots, which hold the
strings `ys`, appends these strings joined by ", " to the output. -/
theorem print_loop_text (arr : Array) : ∀ (ys : List String) (i : Nat) (out : String),
    (∀ t, t < ys.length → arr.elements[i + t]? = (ys[t]?).map Slot.str) →
    arr.count.toNat = i + ys.length →
    print_loop arr out (i : Int) ys.length = .ok (out ++ ", ".intercalate ys) := by
  intro ys
  induction ys with
  | nil =>
    intro i out _ _
    simp [print_loop, String.intercalate]
  | cons y ys ih =>
    intro i out hs hcnt
    have h0 : arr.elements[i]? = some (Slot.str y) := by
      have := hs 0 (by simp)
      simpa using this
    have e1 : (i : Int) + 1 = ((i + 1 : Nat) : Int) := by push_cast; ring
    have hs1 : ∀ t, t < ys.length → arr.elements[i + 1 + t]? = (ys[t]?).map Slot.str := by
      intro t ht
      have := hs (t + 1) (by simp; omega)
      rw [List.getElem?_cons_succ] at this
      rw [← this]
      congr 1
      omega
    have hcnt1 : arr.count.toNat = i + 1 + ys.length := by
      simp only [List.length_cons] at hcnt; omega
    simp only [List.length_cons, print_loop, slot_str_ok arr.elements i y h0, e1]
    cases ys with
    | nil =>
      have hlast : ¬ ((i : Int) ≠ arr.count - 1) := by
        simp only [List.length_nil] at hcnt1; omega
      simp [hlast, print_loop, String.intercalate, String.intercalate.go]
    | cons z zs =>
      have hmid : (i : Int) ≠ arr.count - 1 := by
        simp only [List.length_cons] at hcnt1; omega
      rw [if_pos hmid, ih (i + 1) _ hs1 hcnt1]
      simp only [String.intercalate, String.intercalate.go]
      rw [intercalate_go_append ", " zs (y ++ ", ") z]
      simp only [String.append_assoc]

/-- A list of slots none of which is junk is a list of pointers to strings. -/
theorem slots_are_strings : ∀ (L : List Slot), (∀ x ∈ L, x ≠ Slot.junk) →
    ∃ xs : List String, L = xs.map Slot.str := by
  intro L
  induction L with
  | nil => intro _; exact ⟨[], rfl⟩
  | cons x L ih =>
    intro h
    obtain ⟨xs, hxs⟩ := ih (fun y hy => h y (List.mem_cons_of_mem _ hy))
    cases x with
    | junk => exact absurd rfl (h Slot.junk (List.mem_cons_self _ _))
    | str s => exact ⟨s :: xs, by rw [hxs]; rfl⟩

/-- The whole of `arr_print` on an array whose live slots hold the strings
`xs`. -/
theorem arr_print_text (arr : Array) (xs : List String)
    (halloc : Allocated arr) (hc : arr.count ≤ arr.capacity)
    (hl : live arr = xs.map Slot.str) :
    arr_print arr = .ok ("[" ++ ", ".intercalate xs ++ "]\n", arr) := by
  unfold Allocated at halloc
  have hlen : xs.length = arr.count.toNat := by
    have h1 : (live arr).length = arr.count.toNat := by
      simp [live]; omega
    rw [hl] at h1
    simpa using h1
  have hp := print_loop_text arr xs 0 "[" (by
    intro t ht
    have h1 := live_getElem? arr t
    rw [if_pos (by omega), hl, List.getElem?_map] at h1
    rw [Nat.zero_add, ← h1]) (by omega)
  rw [hlen] at hp
  simp only [Nat.cast_zero] at hp
  simp only [arr_print, hp]

/-! ## C17 -/

/-- C17: on an array of the data model the live slots hold a list `xs` of
strings, and `arr_print` writes "[", then the strings of `xs` in index order
joined by ", " (nothing for an empty array, no separator after the last
element), then "]" and a newline; the array after the call is the array
before it. -/
theorem arr_print_spec (arr : Array)
    (halloc : Allocated arr) (hc : arr.count ≤ arr.capacity) (hown : Owned arr) :
    (∃ xs : List String, live arr = xs.map Slot.str) ∧
    (∀ xs : List String, live arr = xs.map Slot.str →
      arr_print arr = .ok ("[" ++ ", ".intercalate xs ++ "]\n", arr)) := by
  constructor
  · exact slots_are_strings (live arr) hown
  · intro xs hl
    exact arr_print_text arr xs halloc hc hl

/-- Witness for C17: the live sequence "a", "b", "c" in a block of four
slots is printed as "[a, b, c]" and a newline. -/
theorem arr_print_spec_witness :
    arr_print ⟨4, 3, [.str "a", .str "b", .str "c", .junk]⟩ =
      .ok ("[a, b, c]\n", ⟨4, 3, [.str "a", .str "b", .str "c", .junk]⟩) :=
  (arr_print_spec ⟨4, 3, [.str "a", .str "b", .str "c", .junk]⟩
    (by decide) (by decide) (by decide)).2 ["a", "b", "c"] rfl

/-! ## Insertion in terms of the live sequence -/

/-- Two arrays of the data model with the same live sequence have the same
`count`. -/
theorem count_eq_of_live_eq (a b : Array) (ha : WellFormed a) (hb : WellFormed b)
    (hlive : live a = live b) : a.count = b.count := by
  obtain ⟨hal, -, ⟨ha0, hac⟩, -, -⟩ := ha
  obtain ⟨hbl, -, ⟨hb0, hbc⟩, -, -⟩ := hb
  unfold Allocated at hal hbl
  have h1 : (live a).length = a.count.toNat := by simp [live]; omega
  have h2 : (live b).length = b.count.toNat := by simp [live]; omega
  rw [hlive, h2] at h1
  omega

/-- The array of `n` elements in a block of `n + 1` slots is an array of the
data model, for `n + 1 <= INT_MAX`, and has the live sequence of the full
array of `n` elements. -/
theorem spare_array_wf (n : Nat) (h2 : (n : Int) + 1 ≤ INT_MAX) :
    WellFormed (spare_array n) ∧ live (spare_array n) = live (full_array n) := by
  have hl : live (spare_array n) = List.replicate n (Slot.str "a") := by
    simp [live, spare_array, List.take_append_eq_append_take]
  have hf : live (full_array n) = List.replicate n (Slot.str "a") := by
    simp [live, full_array]
  refine ⟨⟨?_, ?_, ⟨?_, ?_⟩, ?_, h2⟩, by rw [hl, hf]⟩
  · simp [Allocated, spare_array]
  · intro x hx
    rw [hl] at hx
    rw [List.eq_of_mem_replicate hx]
    exact fun h => Slot.noConfusion h
  · simp [spare_array]
  · simp [spare_array]
  · simp only [spare_array]; omega

/-! ## C18 -/

/-- C18 as stated fails: the full array of `2^30` elements and the array
with the same elements in a block of `2^30 + 1` slots are arrays of the data
model with the same live sequence, and `arr_append` of the same value exits
in `resize_array` on the first and returns an array on the second: the
capacity is observed. -/
theorem capacity_observed_at_int_limit :
    WellFormed (full_array 1073741824) ∧ WellFormed (spare_array 1073741824) ∧
    live (full_array 1073741824) = live (spare_array 1073741824) ∧
    arr_append (full_array 1073741824) "b" = .error Fault.allocFailed ∧
    ∃ b1, arr_append (spare_array 1073741824) "b" = .ok (none, b1) := by
  obtain ⟨hwf, hl⟩ := spare_array_wf 1073741824 (by norm_num [INT_MAX])
  refine ⟨full_array_limit_wf, hwf, hl.symm, full_array_limit_append "b", ?_⟩
  obtain ⟨b1, h, -⟩ := arr_append_live (spare_array 1073741824) "b" hwf.1 hwf.2.2.2.1
    hwf.2.2.1.1 hwf.2.2.1.2 (Or.inl (by norm_num [spare_array]))
  exact ⟨b1, h⟩

/-- C18, amended: two arrays of the data model with the same live sequence,
whatever their capacities, answer alike: `arr_read` returns the same pointer
value and report, `arr_remove` gives the same report and equal live
sequences afterwards, `arr_print` writes the same text, and, when each of the
two has a free slot or a doubled capacity that is an `int`, `arr_insert` and
`arr_append` give the same report and equal live sequences afterwards. -/
theorem capacity_not_observable (a b : Array) (v : String) (i : Int)
    (ha : WellFormed a) (hb : WellFormed b) (hlive : live a = live b) :
    (∃ x rep, arr_read a i = .ok (x, rep, a) ∧ arr_read b i = .ok (x, rep, b)) ∧
    (CanGrow a → CanGrow b →
      ∃ rep a1 b1, arr_insert a v i = .ok (rep, a1) ∧ arr_insert b v i = .ok (rep, b1) ∧
        live a1 = live b1) ∧
    (CanGrow a → CanGrow b →
      ∃ rep a1 b1, arr_append a v = .ok (rep, a1) ∧ arr_append b v = .ok (rep, b1) ∧
        live a1 = live b1) ∧
    (∃ rep a1 b1, arr_remove a v = .ok (rep, a1) ∧ arr_remove b v = .ok (rep, b1) ∧
      live a1 = live b1) ∧
    (∃ out, arr_print a = .ok (out, a) ∧ arr_print b = .ok (out, b)) := by
  have hcnt := count_eq_of_live_eq a b ha hb hlive
  obtain ⟨hal, hao, ⟨ha0, hac⟩, hacap, -⟩ := ha
  obtain ⟨hbl, hbo, ⟨hb0, hbc⟩, hbcap, -⟩ := hb
  have hins : CanGrow a → CanGrow b → ∀ p : Nat, (p : Int) ≤ a.count →
      ∃ rep a1 b1, arr_insert a v (p : Int) = .ok (rep, a1) ∧
        arr_insert b v (p : Int) = .ok (rep, b1) ∧ live a1 = live b1 := by
    intro hga hgb p hp
    obtain ⟨a1, hra, -, -, -, hla⟩ := arr_insert_live a v p hal hacap ha0 hac hga hp
    obtain ⟨b1, hrb, -, -, -, hlb⟩ :=
      arr_insert_live b v p hbl hbcap hb0 hbc hgb (by omega)
    exact ⟨none, a1, b1, hra, hrb, by rw [hla, hlb, hlive]⟩
  refine ⟨?_, ?_, ?_, ?_, ?_⟩
  · by_cases hg : i < 0 ∨ i ≥ a.count
    · have hg2 : i < 0 ∨ i ≥ b.count := by omega
      exact ⟨none, some Report.IndexOutOfRange,
        by simp only [arr_read, hg, if_true], by simp only [arr_read, hg2, if_true]⟩
    · have hg2 : ¬ (i < 0 ∨ i ≥ b.count) := by omega
      obtain ⟨n, rfl⟩ := Int.eq_ofNat_of_zero_le (show 0 ≤ i by omega)
      obtain ⟨s, hs⟩ := live_slot_str a hal hac hao n (by omega)
      have hs2 : b.elements[n]? = some (Slot.str s) := by
        have h1 := live_getElem? a n
        have h2 := live_getElem? b n
        rw [if_pos (by omega)] at h1 h2
        rw [← h2, ← hlive, h1, hs]
      exact ⟨some s, none,
        by simp only [arr_read, hg, if_false, slot_str_ok a.elements n s hs],
        by simp only [arr_read, hg2, if_false, slot_str_ok b.elements n s hs2]⟩
  · intro hga hgb
    by_cases hg : i < 0 ∨ i > a.count
    · have hg2 : i < 0 ∨ i > b.count := by omega
      exact ⟨some Report.IndexOutOfRange, a, b,
        by simp only [arr_insert, hg, if_true], by simp only [arr_insert, hg2, if_true],
        hlive⟩
    · obtain ⟨p, rfl⟩ := Int.eq_ofNat_of_zero_le (show 0 ≤ i by omega)
      exact hins hga hgb p (by omega)
  · intro hga hgb
    obtain ⟨p, hp⟩ := Int.eq_ofNat_of_zero_le ha0
    rw [arr_append_unfold a v ha0, arr_append_unfold b v hb0, ← hcnt, hp]
    exact hins hga hgb p (by omega)
  · by_cases hmem : Slot.str v ∈ live a
    · obtain ⟨k, hk, hleast⟩ := least_live_index a v hmem
      obtain ⟨es1, hra, -, -, hpa⟩ := arr_remove_live a v k hal hac hao hk hleast
      obtain ⟨es2, hrb, -, -, hpb⟩ := arr_remove_live b v k hbl hbc hbo
        (by rw [← hlive]; exact hk) (by rw [← hlive]; exact hleast)
      refine ⟨none, _, _, hra, hrb, ?_⟩
      apply List.ext_getElem?
      intro t
      rw [hpa t, hpb t, hlive]
    · have hmem2 : Slot.str v ∉ live b := by rw [← hlive]; exact hmem
      refine ⟨some Report.NotFound, a, b, ?_, ?_, hlive⟩
      · unfold arr_remove
        exact remove_scan_absent a v hal hac hao hmem
      · unfold arr_remove
        exact remove_scan_absent b v hbl hbc hbo hmem2
  · obtain ⟨xs, hxs⟩ := slots_are_strings (live a) hao
    exact ⟨_, arr_print_text a xs hal hac hxs,
      arr_print_text b xs hbl hbc (by rw [← hlive]; exact hxs)⟩

/-- Witness for C18: the live sequence "a", "b" held once in a full block of
two slots and once in a block of four, with the value "a" and the index 1. -/
theorem capacity_not_observable_witness :
    (∃ x rep, arr_read ⟨2, 2, [.str "a", .str "b"]⟩ 1
        = .ok (x, rep, ⟨2, 2, [.str "a", .str "b"]⟩) ∧
      arr_read ⟨4, 2, [.str "a", .str "b", .junk, .str "z"]⟩ 1
        = .ok (x, rep, ⟨4, 2, [.str "a", .str "b", .junk, .str "z"]⟩)) ∧
    (∃ rep a1 b1, arr_insert ⟨2, 2, [.str "a", .str "b"]⟩ "a" 1 = .ok (rep, a1) ∧
      arr_insert ⟨4, 2, [.str "a", .str "b", .junk, .str "z"]⟩ "a" 1 = .ok (rep, b1) ∧
      live a1 = live b1) ∧
    (∃ rep a1 b1, arr_append ⟨2, 2, [.str "a", .str "b"]⟩ "a" = .ok (rep, a1) ∧
      arr_append ⟨4, 2, [.str "a", .str "b", .junk, .str "z"]⟩ "a" = .ok (rep, b1) ∧
      live a1 = live b1) ∧
    (∃ rep a1 b1, arr_remove ⟨2, 2, [.str "a", .str "b"]⟩ "a" = .ok (rep, a1) ∧
      arr_remove ⟨4, 2, [.str "a", .str "b", .junk, .str "z"]⟩ "a" = .ok (rep, b1) ∧
      live a1 = live b1) ∧
    (∃ out, arr_print ⟨2, 2, [.str "a", .str "b"]⟩
        = .ok (out, ⟨2, 2, [.str "a", .str "b"]⟩) ∧
      arr_print ⟨4, 2, [.str "a", .str "b", .junk, .str "z"]⟩
        = .ok (out, ⟨4, 2, [.str "a", .str "b", .junk, .str "z"]⟩)) := by
  obtain ⟨h1, h2, h3, h4, h5⟩ :=
    capacity_not_observable ⟨2, 2, [.str "a", .str "b"]⟩
      ⟨4, 2, [.str "a", .str "b", .junk, .str "z"]⟩ "a" 1 (by decide) (by decide) (by decide)
  exact ⟨h1, h2 (by decide) (by decide), h3 (by decide) (by decide), h4, h5⟩

/-! ## Sequences of growing calls -/

/-- One call with a valid index on an array of the data model that can grow
returns without a report; the array it leaves is allocated, has one element
more, has its capacity doubled exactly when the array was full, and its live
sequence holds the old elements and the new one. -/
theorem call_step (arr : Array) (c : Call)
    (halloc : Allocated arr) (hcap : 1 ≤ arr.capacity)
    (h0 : 0 ≤ arr.count) (hc : arr.count ≤ arr.capacity) (hgrow : CanGrow arr)
    (hv : valid_calls arr.count [c] = true) :
    ∃ a1, call arr c = .ok (none, a1) ∧ Allocated a1 ∧
      a1.count = arr.count + 1 ∧
      a1.capacity = (if arr.count = arr.capacity then 2 * arr.capacity else arr.capacity) ∧
      (live a1).Perm (live arr ++ [Slot.str c.element]) ∧
      ((∃ e, c = Call.append e) → live a1 = live arr ++ [Slot.str c.element]) := by
  cases c with
  | insert e i =>
    simp only [valid_calls, Bool.and_true, decide_eq_true_eq] at hv
    obtain ⟨p, rfl⟩ := Int.eq_ofNat_of_zero_le hv.1
    obtain ⟨a1, hr, hal, hcnt, hcp, hl⟩ :=
      arr_insert_live arr e p halloc hcap h0 hc hgrow hv.2
    refine ⟨a1, hr, hal, hcnt, hcp, ?_, ?_⟩
    · rw [hl, List.append_assoc, List.singleton_append]
      refine List.perm_middle.trans ?_
      rw [List.take_append_drop]
      exact (List.perm_append_singleton _ _).symm
    · rintro ⟨e2, he2⟩
      exact Call.noConfusion he2
  | append e =>
    obtain ⟨a1, hr, hal, hcnt, hcp, hl⟩ := arr_append_live arr e halloc hcap h0 hc hgrow
    exact ⟨a1, hr, hal, hcnt, hcp, by rw [hl]; rfl, fun _ => hl⟩

/-- A call that returns without a report was given a valid index. -/
theorem call_success_valid (arr a1 : Array) (c : Call)
    (h : call arr c = .ok (none, a1)) : valid_calls arr.count [c] = true := by
  cases c with
  | insert e i =>
    simp only [valid_calls, Bool.and_true, decide_eq_true_eq]
    by_contra hcon
    have hg : i < 0 ∨ i > arr.count := by omega
    simp only [call, arr_insert, hg, if_true] at h
    injection h with h1
    injection h1 with h2
    exact Option.noConfusion h2
  | append e => rfl

/-- A call that returns without a report, on an array with an `int`
capacity and `count <= capacity`, found the array able to grow. -/
theorem call_success_can_grow (arr a1 : Array) (c : Call)
    (hint : arr.capacity ≤ INT_MAX) (hc : arr.count ≤ arr.capacity)
    (h : call arr c = .ok (none, a1)) : CanGrow arr := by
  by_contra hng
  have hv := call_success_valid arr a1 c h
  unfold CanGrow at hng
  have hfull : arr.count = arr.capacity := by omega
  have hbig : INT_MAX < arr.capacity * 2 := by omega
  cases c with
  | insert e i =>
    simp only [valid_calls, Bool.and_true, decide_eq_true_eq] at hv
    simp only [call, arr_insert_exits arr e i hfull hbig hint hv.1 hv.2] at h
    exact Except.noConfusion h
  | append e =>
    simp only [call, arr_append_exits arr e hfull hbig hint] at h
    exact Except.noConfusion h

/-- The first step of the client. -/
theorem run_calls_cons (arr final : Array) (c : Call) (cs : List Call)
    (h : run_calls arr (c :: cs) = some final) :
    ∃ a1, call arr c = .ok (none, a1) ∧ run_calls a1 cs = some final := by
  simp only [run_calls] at h
  split at h
  · next a1 heq => exact ⟨a1, heq, h⟩
  · exact absurd h (by simp)

/-- The arithmetic of doubling: the capacity after a growing call is again
the least power of two that is not below the new count. -/
theorem doubling_step (cap cnt : Int) (hle : cnt ≤ cap)
    (hp : ∃ k : Nat, cap = 2 ^ k ∧ (k = 0 ∨ (2 : Int) ^ (k - 1) < cnt)) :
    cnt + 1 ≤ (if cnt = cap then 2 * cap else cap) ∧
    ∃ k : Nat, (if cnt = cap then 2 * cap else cap) = 2 ^ k ∧
      (k = 0 ∨ (2 : Int) ^ (k - 1) < cnt + 1) := by
  obtain ⟨k, hk, hmin⟩ := hp
  have hpos : (0 : Int) < 2 ^ k := by positivity
  by_cases hfull : cnt = cap
  · rw [if_pos hfull]
    refine ⟨by omega, k + 1, by rw [hk]; ring, Or.inr ?_⟩
    rw [Nat.add_sub_cancel, ← hk]
    omega
  · rw [if_neg hfull]
    refine ⟨by omega, k, hk, ?_⟩
    rcases hmin with h | h
    · exact Or.inl h
    · exact Or.inr (by omega)

/-- The client on an array of the data model whose capacity is an `int` and
the least power of two not below its count: after every successful run the
count has grown by the number of calls and the capacity is again an `int`
and the least power of two not below the count. -/
theorem run_calls_capacity : ∀ (cs : List Call) (arr final : Array),
    Allocated arr → 0 ≤ arr.count → arr.count ≤ arr.capacity →
    arr.capacity ≤ INT_MAX →
    (∃ k : Nat, arr.capacity = 2 ^ k ∧ (k = 0 ∨ (2 : Int) ^ (k - 1) < arr.count)) →
    run_calls arr cs = some final →
    final.count = arr.count + cs.length ∧ final.count ≤ final.capacity ∧
      final.capacity ≤ INT_MAX ∧
      ∃ k : Nat, final.capacity = 2 ^ k ∧ (k = 0 ∨ (2 : Int) ^ (k - 1) < final.count) := by
  intro cs
  induction cs with
  | nil =>
    intro arr final _ _ hc hint hp h
    simp only [run_calls] at h
    injection h with h1
    subst h1
    exact ⟨by simp, hc, hint, hp⟩
  | cons c cs ih =>
    intro arr final halloc h0 hc hint hp h
    obtain ⟨a1, hcall, hrest⟩ := run_calls_cons arr final c cs h
    have hcap : 1 ≤ arr.capacity := by
      obtain ⟨k, hk, -⟩ := hp
      have : (0 : Int) < 2 ^ k := by positivity
      omega
    have hgrow := call_success_can_grow arr a1 c hint hc hcall
    obtain ⟨a2, hcall2, hal, hcnt, hcp, -, -⟩ :=
      call_step arr c halloc hcap h0 hc hgrow (call_success_valid arr a1 c hcall)
    have heq : a1 = a2 := by
      rw [hcall] at hcall2
      injection hcall2 with h1
      injection h1
    subst heq
    have hint1 : a1.capacity ≤ INT_MAX := by
      rw [hcp]
      unfold CanGrow at hgrow
      split_ifs <;> omega
    obtain ⟨hle, hp1⟩ := doubling_step arr.capacity arr.count hc hp
    rw [← hcp, ← hcnt] at hle hp1
    obtain ⟨hf1, hf2, hf3, hf4⟩ := ih a1 final hal (by omega) hle hint1 hp1 hrest
    refine ⟨?_, hf2, hf3, hf4⟩
    rw [hf1, hcnt, List.length_cons]
    push_cast
    ring

/-! ## C11 -/

/-- C11: after every sequence of `n` calls of `arr_insert` / `arr_append`
that all return without a report, started on the array `create_array(1)`
returns, `capacity` is a power of two `2 ^ k` with `n <= 2 ^ k`, and it is
the smallest one: every `2 ^ j` with `n <= 2 ^ j` has `k <= j`. -/
theorem capacity_after_n_calls (cs : List Call) (a0 final : Array)
    (hcreate : create_array 1 = .ok a0) (hrun : run_calls a0 cs = some final) :
    ∃ k : Nat, final.capacity = 2 ^ k ∧ (cs.length : Int) ≤ 2 ^ k ∧
      ∀ j : Nat, (cs.length : Int) ≤ 2 ^ j → k ≤ j := by
  have ha0 : a0 = ⟨1, 0, [Slot.junk]⟩ := by
    have h1 : create_array 1 = .ok ⟨1, 0, [Slot.junk]⟩ := rfl
    rw [hcreate] at h1
    injection h1
  subst ha0
  obtain ⟨hcnt, hle, -, k, hk, hmin⟩ :=
    run_calls_capacity cs _ final (by decide) (by decide) (by decide) (by decide)
      ⟨0, by decide, Or.inl rfl⟩ hrun
  simp only [zero_add] at hcnt
  refine ⟨k, hk, by rw [← hcnt, ← hk]; exact hle, ?_⟩
  intro j hj
  rcases hmin with h | h
  · omega
  · rw [hcnt] at h
    have hlt : (2 : Int) ^ (k - 1) < 2 ^ j := lt_of_lt_of_le h hj
    have := (pow_lt_pow_iff_right₀ (by norm_num : (1 : Int) < 2)).mp hlt
    omega

/-- Witness for C11: three calls, after which the capacity is 4. -/
theorem capacity_after_n_calls_witness :
    ∃ k : Nat, (⟨4, 3, [.str "a", .str "c", .str "b", .junk]⟩ : Array).capacity = 2 ^ k ∧
      (([Call.insert "a" 0, Call.append "b", Call.insert "c" 1] : List Call).length : Int)
        ≤ 2 ^ k ∧
      ∀ j : Nat,
        (([Call.insert "a" 0, Call.append "b", Call.insert "c" 1] : List Call).length : Int)
          ≤ 2 ^ j → k ≤ j :=
  capacity_after_n_calls [Call.insert "a" 0, Call.append "b", Call.insert "c" 1]
    ⟨1, 0, [.junk]⟩ ⟨4, 3, [.str "a", .str "c", .str "b", .junk]⟩ rfl rfl

/-! ## C12 -/

/-- Validity of a sequence of calls is validity of its first call and of the
rest, one element later. -/
theorem valid_calls_cons (n : Int) (c : Call) (cs : List Call)
    (h : valid_calls n (c :: cs) = true) :
    valid_calls n [c] = true ∧ valid_calls (n + 1) cs = true := by
  cases c with
  | insert e i =>
    simp only [valid_calls, Bool.and_eq_true, decide_eq_true_eq, Bool.and_true] at h ⊢
    exact h
  | append e =>
    simp only [valid_calls] at h ⊢
    exact ⟨trivial, h⟩

/-- A sequence of appends is a sequence of calls with valid indices. -/
theorem valid_calls_appends (e : String) : ∀ (n : Nat) (m : Int),
    valid_calls m (List.replicate n (Call.append e)) = true := by
  intro n
  induction n with
  | zero => intro m; rfl
  | succ n ih =>
    intro m
    rw [List.replicate_succ]
    simp only [valid_calls]
    exact ih (m + 1)

/-- The client on an array of the data model, with valid indices and with
no more calls than lead to `2^30` elements: every call returns without a
report, the count grows by the number of calls, and the final live sequence
holds the old elements and the strings handed over, in the order of the
calls when all of them are appends. -/
theorem run_calls_valid : ∀ (cs : List Call) (arr : Array),
    Allocated arr → 1 ≤ arr.capacity → 0 ≤ arr.count → arr.count ≤ arr.capacity →
    arr.count + cs.length ≤ 1073741824 →
    valid_calls arr.count cs = true →
    ∃ final, run_calls arr cs = some final ∧
      final.count = arr.count + cs.length ∧
      (live final).Perm (live arr ++ (cs.map Call.element).map Slot.str) ∧
      ((∀ c ∈ cs, ∃ e, c = Call.append e) →
        live final = live arr ++ (cs.map Call.element).map Slot.str) := by
  intro cs
  induction cs with
  | nil =>
    intro arr _ _ _ _ _ _
    exact ⟨arr, rfl, by simp, by simp, fun _ => by simp⟩
  | cons c cs ih =>
    intro arr halloc hcap h0 hc hlen hv
    simp only [List.length_cons] at hlen
    push_cast at hlen
    have hgrow : CanGrow arr := by
      unfold CanGrow INT_MAX
      omega
    obtain ⟨hv1, hv2⟩ := valid_calls_cons arr.count c cs hv
    obtain ⟨a1, hcall, hal, hcnt, hcp, hperm, hord⟩ :=
      call_step arr c halloc hcap h0 hc hgrow hv1
    have hcap1 : 1 ≤ a1.capacity := by rw [hcp]; split_ifs <;> omega
    have hc1 : a1.count ≤ a1.capacity := by rw [hcp, hcnt]; split_ifs <;> omega
    rw [← hcnt] at hv2
    obtain ⟨final, hrun, hfc, hfp, hfo⟩ :=
      ih a1 hal hcap1 (by omega) hc1 (by omega) hv2
    refine ⟨final, by simp only [run_calls, hcall]; exact hrun, ?_, ?_, ?_⟩
    · rw [hfc, hcnt, List.length_cons]
      push_cast
      ring
    · refine hfp.trans ?_
      refine (List.Perm.append_right _ hperm).trans ?_
      simp
    · intro happ
      rw [hfo (fun x hx => happ x (List.mem_cons_of_mem _ hx)),
        hord (happ c (List.mem_cons_self _ _))]
      simp

/-- C12 as stated fails: the sequence of `2^30 + 1` appends of "a" has valid
indices, and started on the array `create_array(1)` returns it does not run
to its end: no final array exists, so none with `count = 2^30 + 1`.  The
growth of the full array of capacity `2^30` exits in `resize_array`. -/
theorem long_run_exits_at_int_limit :
    create_array 1 = .ok ⟨1, 0, [Slot.junk]⟩ ∧
    valid_calls 0 (List.replicate 1073741825 (Call.append "a")) = true ∧
    ¬ ∃ final, run_calls ⟨1, 0, [Slot.junk]⟩
      (List.replicate 1073741825 (Call.append "a")) = some final := by
  refine ⟨rfl, valid_calls_appends "a" _ 0, ?_⟩
  rintro ⟨final, hrun⟩
  obtain ⟨hcnt, hle, hint, k, hk, -⟩ :=
    run_calls_capacity _ _ final (by decide) (by decide) (by decide) (by decide)
      ⟨0, by decide, Or.inl rfl⟩ hrun
  rw [List.length_replicate] at hcnt
  have hk31 : k < 31 := by
    have hlt : (2 : Int) ^ k < 2 ^ 31 := by
      rw [← hk]
      unfold INT_MAX at hint
      omega
    exact (pow_lt_pow_iff_right₀ (by norm_num : (1 : Int) < 2)).mp hlt
  have hk30 : (2 : Int) ^ k ≤ 2 ^ 30 :=
    pow_le_pow_right₀ (by norm_num) (by omega)
  rw [hk] at hle
  have e30 : (2 : Int) ^ 30 = 1073741824 := by norm_num
  have e0 : (({ capacity := 1, count := 0, elements := [Slot.junk] } : Array)).count = 0 := rfl
  rw [e0] at hcnt
  push_cast at hcnt
  omega

/-- C12, amended: every sequence of `n <= 2^30` calls of `arr_insert` /
`arr_append` with valid indices, started on the array `create_array(1)`
returns, runs to its end without a report; the final `count` is `n`, the
final live elements are, as a multiset, the `n` strings handed over, and when
all calls are appends the final live sequence is these strings in the order
of the calls. -/
theorem no_element_lost (cs : List Call) (a0 : Array)
    (hcreate : create_array 1 = .ok a0) (hlen : cs.length ≤ 1073741824)
    (hv : valid_calls 0 cs = true) :
    ∃ final, run_calls a0 cs = some final ∧
      final.count = cs.length ∧
      (Multiset.ofList (live final) : Multiset Slot) =
        Multiset.ofList ((cs.map Call.element).map Slot.str) ∧
      ((∀ c ∈ cs, ∃ e, c = Call.append e) →
        live final = (cs.map Call.element).map Slot.str) := by
  have ha0 : a0 = ⟨1, 0, [Slot.junk]⟩ := by
    have h1 : create_array 1 = .ok ⟨1, 0, [Slot.junk]⟩ := rfl
    rw [hcreate] at h1
    injection h1
  subst ha0
  obtain ⟨final, hrun, hcnt, hperm, hord⟩ :=
    run_calls_valid cs ⟨1, 0, [Slot.junk]⟩ (by decide) (by decide) (by decide) (by decide)
      (by simp only; omega) hv
  have hl0 : live (⟨1, 0, [Slot.junk]⟩ : Array) = [] := rfl
  rw [hl0, List.nil_append] at hperm hord
  refine ⟨final, hrun, ?_, ?_, hord⟩
  · rw [hcnt]; simp
  · exact Multiset.coe_eq_coe.mpr hperm

/-- Witness for C12: the three calls insert "a" at 0, append "b", insert
"c" at 0. -/
theorem no_element_lost_witness :
    ∃ final, run_calls ⟨1, 0, [.junk]⟩
        [Call.insert "a" 0, Call.append "b", Call.insert "c" 0] = some final ∧
      final.count = ([Call.insert "a" 0, Call.append "b", Call.insert "c" 0] : List Call).length ∧
      (Multiset.ofList (live final) : Multiset Slot) =
        Multiset.ofList
          (([Call.insert "a" 0, Call.append "b", Call.insert "c" 0].map Call.element).map
            Slot.str) ∧
      ((∀ c ∈ ([Call.insert "a" 0, Call.append "b", Call.insert "c" 0] : List Call),
          ∃ e, c = Call.append e) →
        live final =
          ([Call.insert "a" 0, Call.append "b", Call.insert "c" 0].map Call.element).map
            Slot.str) :=
  no_element_lost [Call.insert "a" 0, Call.append "b", Call.insert "c" 0]
    ⟨1, 0, [.junk]⟩ rfl (by decide) rfl

/-! ## The slot accesses stay inside the block -/

/-- The right shift entered with `i = p + k` reads slots `p .. p + k - 1`
and writes slots `p + 1 .. p + k`. -/
theorem shift_right_accesses_range (p : Int) : ∀ (k : Nat),
    ∀ x ∈ shift_right_accesses p k,
      p ≤ x.index ∧ x.index ≤ p + k ∧ (x.isRead = true → x.index < p + k) := by
  intro k
  induction k with
  | zero => intro x hx; simp [shift_right_accesses] at hx
  | succ k ih =>
    intro x hx
    simp only [shift_right_accesses, List.mem_cons] at hx
    rcases hx with rfl | rfl | hx
    · simp only [Access.index, Access.isRead]
      push_cast
      omega
    · simp only [Access.index, Access.isRead]
      push_cast
      refine ⟨by omega, by omega, ?_⟩
      intro h
      exact absurd h (by simp)
    · obtain ⟨h1, h2, h3⟩ := ih x hx
      push_cast
      exact ⟨h1, by omega, fun h => by have := h3 h; omega⟩

/-- The left shift at index `j` with `k` iterations left reads slots
`j + 1 .. j + k` and writes slots `j .. j + k - 1`. -/
theorem shift_left_accesses_range : ∀ (k : Nat) (j : Int),
    ∀ x ∈ shift_left_accesses j k, j ≤ x.index ∧ x.index ≤ j + k := by
  intro k
  induction k with
  | zero => intro j x hx; simp [shift_left_accesses] at hx
  | succ k ih =>
    intro j x hx
    simp only [shift_left_accesses, List.mem_cons] at hx
    rcases hx with rfl | rfl | hx
    · simp only [Access.index]
      push_cast
      omega
    · simp only [Access.index]
      push_cast
      omega
    · obtain ⟨h1, h2⟩ := ih (j + 1) x hx
      push_cast
      omega

/-- The scan at index `i` with `k = count - i` iterations left, and the left
shift it may start, access slots of `i .. count - 1` only. -/
theorem remove_scan_accesses_range (arr : Array) (v : String) : ∀ (k : Nat) (i : Int),
    0 ≤ i → i + k = arr.count →
    ∀ x ∈ remove_scan_accesses arr v i k, 0 ≤ x.index ∧ x.index < arr.count := by
  intro k
  induction k with
  | zero => intro i _ _ x hx; simp [remove_scan_accesses] at hx
  | succ k ih =>
    intro i hi hik x hx
    push_cast at hik
    simp only [remove_scan_accesses] at hx
    split at hx
    · simp only [List.mem_singleton] at hx
      subst hx
      simp only [Access.index]
      omega
    · split at hx
      · simp only [List.mem_cons] at hx
        rcases hx with rfl | rfl | hx
        · simp only [Access.index]; omega
        · simp only [Access.index]; omega
        · obtain ⟨h1, h2⟩ := shift_left_accesses_range _ i x hx
          have e : (((arr.count - 1 - i).toNat : Nat) : Int) = arr.count - 1 - i := by omega
          rw [e] at h2
          omega
      · simp only [List.mem_cons] at hx
        rcases hx with rfl | hx
        · simp only [Access.index]; omega
        · have := ih (i + 1) (by omega) (by omega) x hx
          omega

/-- A slot read returns exactly when the index lies in the block. -/
theorem slot_get_returns_iff (es : List Slot) (i : Int) :
    (∃ x, slot_get es i = .ok x) ↔ 0 ≤ i ∧ i < es.length := by
  constructor
  · rintro ⟨x, hx⟩
    unfold slot_get at hx
    split at hx
    · exact absurd hx (by simp)
    · split at hx
      · next y hy =>
        rw [List.get?_eq_getElem?] at hy
        have hlt : i.toNat < es.length := by
          by_contra hcon
          rw [List.getElem?_eq_none (by omega)] at hy
          exact absurd hy (by simp)
        omega
      · exact absurd hx (by simp)
  · rintro ⟨h1, h2⟩
    obtain ⟨n, rfl⟩ := Int.eq_ofNat_of_zero_le h1
    exact ⟨_, slot_get_ok es n (by omega)⟩

/-- A slot write returns exactly when the index lies in the block, and the
block keeps its length. -/
theorem slot_set_returns_iff (es : List Slot) (i : Int) (x : Slot) :
    (∃ es1, slot_set es i x = .ok es1) ↔ 0 ≤ i ∧ i < es.length := by
  constructor
  · rintro ⟨es1, h⟩
    unfold slot_set at h
    split at h
    · exact absurd h (by simp)
    · split at h
      · omega
      · exact absurd h (by simp)
  · rintro ⟨h1, h2⟩
    obtain ⟨n, rfl⟩ := Int.eq_ofNat_of_zero_le h1
    exact ⟨_, slot_set_ok es n x (by omega)⟩

theorem slot_set_length (es es1 : List Slot) (i : Int) (x : Slot)
    (h : slot_set es i x = .ok es1) : es1.length = es.length := by
  unfold slot_set at h
  split at h
  · exact absurd h (by simp)
  · split at h
    · injection h with h1
      rw [← h1, List.length_set]
    · exact absurd h (by simp)

/-- The right-shift loop of the embedding returns exactly when every access
listed by `shift_right_accesses` lies in the block. -/
theorem shift_right_returns_iff (p : Int) : ∀ (k : Nat) (es : List Slot),
    (∃ es1, shift_right p es k = .ok es1) ↔
      ∀ x ∈ shift_right_accesses p k, 0 ≤ x.index ∧ x.index < es.length := by
  intro k
  induction k with
  | zero =>
    intro es
    simp [shift_right, shift_right_accesses]
  | succ k ih =>
    intro es
    simp only [shift_right, shift_right_accesses, List.mem_cons, forall_eq_or_imp,
      Access.index]
    constructor
    · rintro ⟨es1, h⟩
      split at h
      · exact absurd h (by simp)
      · next x hx =>
        split at h
        · exact absurd h (by simp)
        · next es2 hw =>
          refine ⟨(slot_get_returns_iff es _).mp ⟨x, hx⟩,
            (slot_set_returns_iff es _ x).mp ⟨es2, hw⟩, ?_⟩
          have := (ih es2).mp ⟨es1, h⟩
          rw [slot_set_length es es2 _ x hw] at this
          exact this
    · rintro ⟨h1, h2, h3⟩
      obtain ⟨x, hx⟩ := (slot_get_returns_iff es _).mpr h1
      obtain ⟨es2, hw⟩ := (slot_set_returns_iff es _ x).mpr h2
      rw [← slot_set_length es es2 _ x hw] at h3
      obtain ⟨es1, h⟩ := (ih es2).mpr h3
      exact ⟨es1, by simp only [hx, hw]; exact h⟩

/-- The left-shift loop of the embedding returns exactly when every access
listed by `shift_left_accesses` lies in the block. -/
theorem shift_left_returns_iff : ∀ (k : Nat) (es : List Slot) (j : Int),
    (∃ es1, shift_left es j k = .ok es1) ↔
      ∀ x ∈ shift_left_accesses j k, 0 ≤ x.index ∧ x.index < es.length := by
  intro k
  induction k with
  | zero =>
    intro es j
    simp [shift_left, shift_left_accesses]
  | succ k ih =>
    intro es j
    simp only [shift_left, shift_left_accesses, List.mem_cons, forall_eq_or_imp,
      Access.index]
    constructor
    · rintro ⟨es1, h⟩
      split at h
      · exact absurd h (by simp)
      · next x hx =>
        split at h
        · exact absurd h (by simp)
        · next es2 hw =>
          refine ⟨(slot_get_returns_iff es _).mp ⟨x, hx⟩,
            (slot_set_returns_iff es _ x).mp ⟨es2, hw⟩, ?_⟩
          have := (ih es2 (j + 1)).mp ⟨es1, h⟩
          rw [slot_set_length es es2 _ x hw] at this
          exact this
    · rintro ⟨h1, h2, h3⟩
      obtain ⟨x, hx⟩ := (slot_get_returns_iff es _).mpr h1
      obtain ⟨es2, hw⟩ := (slot_set_returns_iff es _ x).mpr h2
      rw [← slot_set_length es es2 _ x hw] at h3
      obtain ⟨es1, h⟩ := (ih es2 (j + 1)).mpr h3
      exact ⟨es1, by simp only [hx, hw]; exact h⟩

/-! ## C19 -/

/-- C19: on an array of the data model, each of `arr_insert`, `arr_append`
and `arr_remove` either exits in the growth step before any slot access, or
returns; it never ends with an access outside the block or with the use of
an invalid pointer.  When it returns, the block of the array returned has
`capacity` slots, every slot index the call accesses lies in `[0, capacity)`
of that (possibly just doubled) block, and every slot whose content is read
(`elements[i - 1]` in the right shift, `elements[i]` in the scan,
`elements[j + 1]` in the left shift) lies in `[0, count)`.  `arr_remove`
always returns, and so do `arr_insert` and `arr_append` when the array has a
free slot or its doubled capacity is an `int`. -/
theorem accesses_in_bounds (arr : Array) (v : String) (i : Int) (hwf : WellFormed arr) :
    ((arr_insert arr v i = .error Fault.allocFailed ∧ arr_insert_accesses arr i = []) ∨
      ∃ rep a1, arr_insert arr v i = .ok (rep, a1) ∧ Allocated a1 ∧
        ∀ x ∈ arr_insert_accesses arr i, 0 ≤ x.index ∧ x.index < a1.capacity ∧
          (x.isRead = true → x.index < arr.count)) ∧
    ((arr_append arr v = .error Fault.allocFailed ∧ arr_append_accesses arr = []) ∨
      ∃ rep a1, arr_append arr v = .ok (rep, a1) ∧ Allocated a1 ∧
        ∀ x ∈ arr_append_accesses arr, 0 ≤ x.index ∧ x.index < a1.capacity ∧
          (x.isRead = true → x.index < arr.count)) ∧
    (∃ rep a1, arr_remove arr v = .ok (rep, a1) ∧ Allocated a1 ∧
      ∀ x ∈ arr_remove_accesses arr v, 0 ≤ x.index ∧ x.index < a1.capacity ∧
        (x.isRead = true → x.index < arr.count)) ∧
    (CanGrow arr →
      (∃ rep a1, arr_insert arr v i = .ok (rep, a1)) ∧
      (∃ rep a1, arr_append arr v = .ok (rep, a1))) := by
  obtain ⟨halloc, hown, ⟨h0, hc⟩, hcap, hint⟩ := hwf
  have hexit : ¬ CanGrow arr → grow_if_full arr = .error Fault.allocFailed := by
    intro hng
    unfold CanGrow at hng
    exact grow_if_full_exits arr (by omega) (by omega) hint
  refine ⟨?_, ?_, ?_, ?_⟩
  · by_cases hg : i < 0 ∨ i > arr.count
    · refine Or.inr ⟨some Report.IndexOutOfRange, arr,
        by simp only [arr_insert, hg, if_true], halloc, ?_⟩
      intro x hx
      simp [arr_insert_accesses, hg] at hx
    · by_cases hgrow : CanGrow arr
      · obtain ⟨p, rfl⟩ := Int.eq_ofNat_of_zero_le (show 0 ≤ i by omega)
        obtain ⟨g, hgr, hgc, -, -, -, -⟩ := grow_if_full_ok arr halloc hcap hc hgrow
        obtain ⟨a1, hr, hal, -, hcp, -⟩ :=
          arr_insert_live arr v p halloc hcap h0 hc hgrow (by omega)
        have hlt : arr.count < a1.capacity := by rw [hcp]; split_ifs <;> omega
        refine Or.inr ⟨none, a1, hr, hal, ?_⟩
        intro x hx
        simp only [arr_insert_accesses, hg, if_false, hgr, hgc, List.mem_append,
          List.mem_cons, List.mem_singleton, List.not_mem_nil, or_false] at hx
        rcases hx with hx | rfl | rfl
        · obtain ⟨h1, h2, h3⟩ := shift_right_accesses_range _ _ x hx
          have e : (((arr.count - (p : Int)).toNat : Nat) : Int) = arr.count - p := by omega
          rw [e] at h2 h3
          exact ⟨by omega, by omega, fun h => by have := h3 h; omega⟩
        · simp only [Access.index, Access.isRead]
          exact ⟨by omega, by omega, by simp⟩
        · simp only [Access.index, Access.isRead]
          exact ⟨by omega, by omega, by simp⟩
      · refine Or.inl ⟨arr_insert_exits arr v i ?_ ?_ hint (by omega) (by omega), ?_⟩
        · unfold CanGrow at hgrow; omega
        · unfold CanGrow at hgrow; omega
        · simp only [arr_insert_accesses, hg, if_false, hexit hgrow]
  · by_cases hgrow : CanGrow arr
    · obtain ⟨g, hgr, hgc, -, -, -, -⟩ := grow_if_full_ok arr halloc hcap hc hgrow
      obtain ⟨a1, hr, hal, -, hcp, -⟩ := arr_append_live arr v halloc hcap h0 hc hgrow
      have hlt : arr.count < a1.capacity := by rw [hcp]; split_ifs <;> omega
      refine Or.inr ⟨none, a1, hr, hal, ?_⟩
      intro x hx
      simp only [arr_append_accesses, hgr, hgc, List.mem_cons, List.mem_singleton,
        List.not_mem_nil, or_false] at hx
      rcases hx with rfl | rfl
      · simp only [Access.index, Access.isRead]
        exact ⟨h0, hlt, by simp⟩
      · simp only [Access.index, Access.isRead]
        exact ⟨h0, hlt, by simp⟩
    · refine Or.inl ⟨arr_append_exits arr v ?_ ?_ hint, ?_⟩
      · unfold CanGrow at hgrow; omega
      · unfold CanGrow at hgrow; omega
      · simp only [arr_append_accesses, hexit hgrow]
  · have hrange : ∀ x ∈ arr_remove_accesses arr v,
        0 ≤ x.index ∧ x.index < arr.capacity ∧ (x.isRead = true → x.index < arr.count) := by
      intro x hx
      obtain ⟨h1, h2⟩ :=
        remove_scan_accesses_range arr v arr.count.toNat 0 (le_refl _) (by omega) x hx
      exact ⟨h1, by omega, fun _ => h2⟩
    by_cases hmem : Slot.str v ∈ live arr
    · obtain ⟨k, hk, hleast⟩ := least_live_index arr v hmem
      obtain ⟨es1, hr, hlen, -, -⟩ := arr_remove_live arr v k halloc hc hown hk hleast
      refine ⟨none, _, hr, ?_, hrange⟩
      unfold Allocated at halloc ⊢
      simp only
      rw [hlen]
      exact halloc
    · refine ⟨some Report.NotFound, arr, ?_, halloc, hrange⟩
      unfold arr_remove
      exact remove_scan_absent arr v halloc hc hown hmem
  · intro hgrow
    constructor
    · rcases arr_insert_cases arr v i halloc hcap hint h0 hc with
        ⟨-, h⟩ | ⟨-, -, -, a1, h, -⟩ | ⟨-, -, hng, -⟩
      · exact ⟨_, _, h⟩
      · exact ⟨_, _, h⟩
      · exact absurd hgrow hng
    · obtain ⟨a1, h, -⟩ := arr_append_live arr v halloc hcap h0 hc hgrow
      exact ⟨_, _, h⟩

/-- Witness for C19: the full two-slot array holding "a", "b", with the
value "b" and the index 0: `arr_insert` and `arr_append` return, after
accesses that are all inside the doubled block. -/
theorem accesses_in_bounds_witness :
    (∃ rep a1, arr_insert ⟨2, 2, [.str "a", .str "b"]⟩ "b" 0 = .ok (rep, a1)) ∧
    (∃ rep a1, arr_append ⟨2, 2, [.str "a", .str "b"]⟩ "b" = .ok (rep, a1)) ∧
    (∃ rep a1, arr_remove ⟨2, 2, [.str "a", .str "b"]⟩ "b" = .ok (rep, a1) ∧ Allocated a1 ∧
      ∀ x ∈ arr_remove_accesses ⟨2, 2, [.str "a", .str "b"]⟩ "b",
        0 ≤ x.index ∧ x.index < a1.capacity ∧
        (x.isRead = true → x.index < (⟨2, 2, [.str "a", .str "b"]⟩ : Array).count)) := by
  obtain ⟨-, -, h3, h4⟩ :=
    accesses_in_bounds ⟨2, 2, [.str "a", .str "b"]⟩ "b" 0 (by decide)
  exact ⟨(h4 (by decide)).1, (h4 (by decide)).2, h3⟩

/-! ## C20 -/

/-- C20 as stated fails: on the array with `capacity = 0`, `count = 0` and an
empty block, `resize_array` does not yield an array with capacity 0 and
`arr_append` neither stores to slot 0 nor ends in an array with `count = 1`:
the request of `2 * 0 = 0` slots is answered with `NULL` and the call exits
in `resize_array`, before any slot access. -/
theorem append_at_capacity_zero_has_no_end_state :
    resize_array ⟨0, 0, []⟩ = .error Fault.allocFailed ∧
    arr_append ⟨0, 0, []⟩ "x" = .error Fault.allocFailed ∧
    arr_append_accesses ⟨0, 0, []⟩ = [] ∧
    ¬ ∃ rep a1, arr_append ⟨0, 0, []⟩ "x" = .ok (rep, a1) ∧ a1.count = 1 ∧ a1.capacity = 0 := by
  have h : arr_append ⟨0, 0, []⟩ "x" = .error Fault.allocFailed := rfl
  refine ⟨rfl, h, rfl, ?_⟩
  rintro ⟨rep, a1, h1, -, -⟩
  rw [h] at h1
  exact Except.noConfusion h1

/-- C20, amended: `create_array` accepts the capacity 0 and returns the array
with `capacity = 0`, `count = 0` and an empty block, which satisfies every
invariant of the data model except `capacity >= 1`; on it `resize_array`
requests `2 * 0 = 0` slots and exits, so that `arr_append` and `arr_insert`
at index 0 exit in the growth step, whatever the value, without an access
to a slot, and `arr_insert` at every other index reports IndexOutOfRange:
no call puts an element into this array. -/
theorem capacity_zero_holds_no_element (v : String) :
    create_array 0 = .ok ⟨0, 0, []⟩ ∧
    Allocated ⟨0, 0, []⟩ ∧ Owned ⟨0, 0, []⟩ ∧ CountInv ⟨0, 0, []⟩ ∧
    ¬ WellFormed ⟨0, 0, []⟩ ∧
    int_wrap ((⟨0, 0, []⟩ : Array).capacity * 2) = 0 ∧
    resize_array ⟨0, 0, []⟩ = .error Fault.allocFailed ∧
    arr_append ⟨0, 0, []⟩ v = .error Fault.allocFailed ∧
    arr_insert ⟨0, 0, []⟩ v 0 = .error Fault.allocFailed ∧
    arr_append_accesses ⟨0, 0, []⟩ = [] ∧
    arr_insert_accesses ⟨0, 0, []⟩ 0 = [] ∧
    ∀ i : Int, i ≠ 0 → arr_insert ⟨0, 0, []⟩ v i = .ok (some Report.IndexOutOfRange, ⟨0, 0, []⟩) := by
  refine ⟨rfl, by decide, by decide, by decide, by decide, by decide, rfl, rfl, rfl, rfl,
    rfl, ?_⟩
  intro i hi
  have hg : i < 0 ∨ i > (⟨0, 0, []⟩ : Array).count := by
    simp only
    omega
  simp only [arr_insert, hg, if_true]

/-- Witness for C20: the index 1 on the array of capacity 0. -/
theorem capacity_zero_holds_no_element_witness :
    arr_insert ⟨0, 0, []⟩ "x" 1 = .ok (some Report.IndexOutOfRange, ⟨0, 0, []⟩) :=
  (capacity_zero_holds_no_element "x").2.2.2.2.2.2.2.2.2.2.2 1 (by decide)

/-! ## The heap: what the stored pointer is -/

/-- A string read at an address: the address is in use. -/
theorem Mem.deref_some (h : Mem.Heap) (a : Nat) (s : String)
    (hd : Mem.deref h a = some s) : a < h.length ∧ h[a]? = some (some s) := by
  unfold Mem.deref at hd
  rw [List.get?_eq_getElem?] at hd
  split at hd
  · next t ht =>
    injection hd with hd1
    subst hd1
    refine ⟨?_, ht⟩
    by_contra hcon
    rw [List.getElem?_eq_none (by omega)] at ht
    exact Option.noConfusion ht
  · exact Option.noConfusion hd

/-- Reading is reading the entry of the heap. -/
theorem Mem.deref_of_getElem? (h : Mem.Heap) (a : Nat) (s : String)
    (hd : h[a]? = some (some s)) : Mem.deref h a = some s := by
  unfold Mem.deref
  rw [List.get?_eq_getElem?, hd]

/-- A write or a release at another address does not change what is read. -/
theorem Mem.deref_set_ne (h : Mem.Heap) (p a : Nat) (x : Option String) (s : String)
    (hne : p ≠ a) (hd : Mem.deref h a = some s) : Mem.deref (h.set p x) a = some s := by
  apply Mem.deref_of_getElem?
  rw [List.getElem?_set_ne hne]
  exact (Mem.deref_some h a s hd).2

/-- What `strdup` returns for the address of a string: the first address not
in use, and the heap with a copy of the string there. -/
theorem Mem.strdup_inv (h h1 : Mem.Heap) (p a : Nat) (s : String)
    (hp : Mem.deref h p = some s) (hs : Mem.strdup h p = .ok (a, h1)) :
    a = h.length ∧ h1 = h ++ [some s] := by
  unfold Mem.strdup at hs
  rw [hp] at hs
  injection hs with hs1
  injection hs1 with h2 h3
  exact ⟨h2.symm, h3.symm⟩

/-- A slot write that returns was inside the block. -/
theorem Mem.slot_set_inv (es es1 : List (Option Nat)) (i : Int) (x : Option Nat)
    (h : Mem.slot_set es i x = .ok es1) :
    0 ≤ i ∧ i.toNat < es.length ∧ es1 = es.set i.toNat x := by
  unfold Mem.slot_set at h
  split at h
  · exact Except.noConfusion h
  · split at h
    · injection h with h1
      exact ⟨by omega, by assumption, h1.symm⟩
    · exact Except.noConfusion h

/-- The growth step never changes `count`. -/
theorem Mem.grow_keeps_count (arr g : Mem.Array) (h : Mem.grow_if_full arr = .ok g) :
    g.count = arr.count := by
  unfold Mem.grow_if_full at h
  split at h
  · unfold Mem.resize_array at h
    dsimp only at h
    split at h
    · exact Except.noConfusion h
    · injection h with h1
      rw [← h1]
  · injection h with h1
    rw [h1]

/-- A call of `arr_insert` that returns without a report has stored, at
`index`, the address `strdup` returned for the caller's string. -/
theorem Mem.arr_insert_inv (h h1 : Mem.Heap) (arr arr1 : Mem.Array) (b : Nat) (i : Int)
    (hr : Mem.arr_insert h arr b i = .ok (none, arr1, h1)) :
    ∃ a es, Mem.strdup h b = .ok (a, h1) ∧
      Mem.slot_set es i (some a) = .ok arr1.elements := by
  unfold Mem.arr_insert at hr
  split at hr
  · injection hr with hr1
    injection hr1 with hr2
    exact Option.noConfusion hr2
  · split at hr
    · exact Except.noConfusion hr
    · split at hr
      · exact Except.noConfusion hr
      · next es _ =>
        split at hr
        · exact Except.noConfusion hr
        · next a h2 hs =>
          split at hr
          · exact Except.noConfusion hr
          · next es1 hw =>
            injection hr with hr1
            injection hr1 with _ hr3
            injection hr3 with hr4 hr5
            subst hr5
            refine ⟨a, es, hs, ?_⟩
            rw [hw, ← hr4]

/-- A call of `arr_append` that returns without a report has stored, at
index `count`, the address `strdup` returned for the caller's string. -/
theorem Mem.arr_append_inv (h h1 : Mem.Heap) (arr arr1 : Mem.Array) (b : Nat)
    (hr : Mem.arr_append h arr b = .ok (none, arr1, h1)) :
    ∃ a es, Mem.strdup h b = .ok (a, h1) ∧
      Mem.slot_set es arr.count (some a) = .ok arr1.elements := by
  unfold Mem.arr_append at hr
  split at hr
  · exact Except.noConfusion hr
  · next g hg =>
    split at hr
    · exact Except.noConfusion hr
    · next a h2 hs =>
      split at hr
      · exact Except.noConfusion hr
      · next es1 hw =>
        injection hr with hr1
        injection hr1 with _ hr3
        injection hr3 with hr4 hr5
        subst hr5
        refine ⟨a, g.elements, hs, ?_⟩
        rw [← Mem.grow_keeps_count arr g hg, hw, ← hr4]

/-- The slot that received the address `strdup` returned for the caller's
string at `b`: the address is not the caller's, the string there is a copy,
and it stays what it is when the caller overwrites or releases its buffer. -/
theorem Mem.stored_copy (h h1 : Mem.Heap) (es es1 : List (Option Nat)) (b a : Nat)
    (s : String) (i : Int) (hb : Mem.deref h b = some s)
    (hs : Mem.strdup h b = .ok (a, h1)) (hw : Mem.slot_set es i (some a) = .ok es1) :
    es1[i.toNat]? = some (some a) ∧ a ≠ b ∧
      Mem.deref h1 a = some s ∧ Mem.deref h1 b = some s ∧
      (∀ s2, Mem.deref (Mem.overwrite h1 b s2) a = some s) ∧
      Mem.deref (Mem.release h1 b) a = some s := by
  obtain ⟨ha, hh1⟩ := Mem.strdup_inv h h1 b a s hb hs
  obtain ⟨-, hlt, hes1⟩ := Mem.slot_set_inv es es1 i (some a) hw
  obtain ⟨hbl, hbe⟩ := Mem.deref_some h b s hb
  have hne : b ≠ a := by omega
  have hda : Mem.deref h1 a = some s := by
    apply Mem.deref_of_getElem?
    rw [hh1, ha, List.getElem?_append_right (le_refl _)]
    simp
  have hdb : Mem.deref h1 b = some s := by
    apply Mem.deref_of_getElem?
    rw [hh1, List.getElem?_append_left hbl]
    exact hbe
  refine ⟨?_, fun hab => hne hab.symm, hda, hdb, ?_, ?_⟩
  · rw [hes1, List.getElem?_set_self hlt]
  · intro s2
    exact Mem.deref_set_ne h1 b a (some s2) s hne hda
  · exact Mem.deref_set_ne h1 b a none s hne hda

/-- Had the slot received the caller's own address `b`, the string read
through it would follow the caller's buffer: gone after a release, changed
after an overwrite. -/
theorem Mem.alias_follows_caller (h : Mem.Heap) (b : Nat) (s : String)
    (hb : Mem.deref h b = some s) :
    Mem.deref (Mem.release h b) b = none ∧
    ∀ s2, Mem.deref (Mem.overwrite h b s2) b = some s2 := by
  obtain ⟨hbl, -⟩ := Mem.deref_some h b s hb
  constructor
  · unfold Mem.deref Mem.release
    rw [List.get?_eq_getElem?, List.getElem?_set_self hbl]
  · intro s2
    apply Mem.deref_of_getElem?
    unfold Mem.overwrite
    rw [List.getElem?_set_self hbl]

/-- The right-shift loop over slots `p + 1 .. p + k` of a block that has a
slot `p + k` returns a block of the same length. -/
theorem Mem.shift_right_returns (p : Nat) : ∀ (k : Nat) (es : List (Option Nat)),
    p + k < es.length →
    ∃ es1, Mem.shift_right (p : Int) es k = .ok es1 ∧ es1.length = es.length := by
  intro k
  induction k with
  | zero => intro es _; exact ⟨es, rfl, rfl⟩
  | succ k ih =>
    intro es hlen
    have e1 : (p : Int) + ((k + 1 : Nat) : Int) - 1 = ((p + k : Nat) : Int) := by
      push_cast; ring
    have e2 : (p : Int) + ((k + 1 : Nat) : Int) = ((p + k + 1 : Nat) : Int) := by
      push_cast; ring
    have hn1 : ¬ (((p + k : Nat) : Int) < 0) := by omega
    have hn2 : ¬ (((p + k + 1 : Nat) : Int) < 0) := by omega
    have hlt : p + k < es.length := by omega
    have hlt1 : p + k + 1 < es.length := by omega
    obtain ⟨es1, hs, hl⟩ := ih (es.set (p + k + 1) es[p + k]) (by simp; omega)
    refine ⟨es1, ?_, by simpa using hl⟩
    have hget : Mem.slot_get es ((p + k : Nat) : Int) = .ok es[p + k] := by
      simp only [Mem.slot_get, hn1, if_false, Int.toNat_ofNat, List.get?_eq_getElem?,
        List.getElem?_eq_getElem hlt]
    have hset : Mem.slot_set es ((p + k + 1 : Nat) : Int) es[p + k]
        = .ok (es.set (p + k + 1) es[p + k]) := by
      simp only [Mem.slot_set, hn2, if_false, Int.toNat_ofNat, hlt1, if_true]
    simp only [Mem.shift_right]
    rw [e1, e2, hget]
    simp only [hset]
    exact hs

/-- The growth step of an array that can grow returns an array with the same
`count` and a block with a slot `count`. -/
theorem Mem.grow_if_full_returns (arr : Mem.Array)
    (hlen : (arr.elements.length : Int) = arr.capacity) (hcap : 1 ≤ arr.capacity)
    (hc : arr.count ≤ arr.capacity)
    (hgrow : arr.count < arr.capacity ∨ arr.capacity * 2 ≤ INT_MAX) :
    ∃ g, Mem.grow_if_full arr = .ok g ∧ g.count = arr.count ∧
      arr.count < g.elements.length := by
  by_cases hfull : arr.count = arr.capacity
  · have hfit : arr.capacity * 2 ≤ INT_MAX := by
      rcases hgrow with h | h
      · omega
      · exact h
    have hw : int_wrap (arr.capacity * 2) = arr.capacity * 2 :=
      int_wrap_in_range _ (by omega) hfit
    have hpos : ¬ (arr.capacity * 2 ≤ 0) := by omega
    refine ⟨{ arr with
        elements := (arr.elements ++ List.replicate (arr.capacity * 2).toNat none).take
          (arr.capacity * 2).toNat,
        capacity := arr.capacity * 2 }, ?_, rfl, ?_⟩
    · simp only [Mem.grow_if_full, hfull, if_true, Mem.resize_array, hw, Mem.realloc, hpos,
        if_false]
    · simp only [List.length_take, List.length_append, List.length_replicate]
      omega
  · exact ⟨arr, by simp only [Mem.grow_if_full, hfull, if_false], rfl, by omega⟩

/-! ## C16 -/

/-- C16: with `b` the address of the caller's string `s`, every call of
`arr_insert` and every call of `arr_append` that returns without a report
leaves in the slot it filled an address `a` that is not `b` (the stored
element is not the caller's storage) and at which a copy of `s` is read; the
caller's buffer still holds `s`, and the stored string is still `s` after
the caller overwrites its buffer with any other string and after the caller
releases its buffer.  Such a call does return without a report on an array
whose block has `capacity >= 1` slots, with `0 <= count <= capacity` and a
free slot or a doubled capacity that is an `int` (for `arr_insert`, at an
index `0 <= i <= count`). -/
theorem stored_copy_is_independent (h : Mem.Heap) (arr : Mem.Array) (b : Nat)
    (s : String) (i : Int) (hb : Mem.deref h b = some s) :
    (∀ arr1 h1, Mem.arr_insert h arr b i = .ok (none, arr1, h1) →
      ∃ a, arr1.elements[i.toNat]? = some (some a) ∧ a ≠ b ∧
        Mem.deref h1 a = some s ∧ Mem.deref h1 b = some s ∧
        (∀ s2, Mem.deref (Mem.overwrite h1 b s2) a = some s) ∧
        Mem.deref (Mem.release h1 b) a = some s) ∧
    (∀ arr1 h1, Mem.arr_append h arr b = .ok (none, arr1, h1) →
      ∃ a, arr1.elements[arr.count.toNat]? = some (some a) ∧ a ≠ b ∧
        Mem.deref h1 a = some s ∧ Mem.deref h1 b = some s ∧
        (∀ s2, Mem.deref (Mem.overwrite h1 b s2) a = some s) ∧
        Mem.deref (Mem.release h1 b) a = some s) ∧
    ((arr.elements.length : Int) = arr.capacity → 1 ≤ arr.capacity →
      0 ≤ arr.count → arr.count ≤ arr.capacity →
      (arr.count < arr.capacity ∨ arr.capacity * 2 ≤ INT_MAX) →
      (0 ≤ i → i ≤ arr.count → ∃ arr1 h1, Mem.arr_insert h arr b i = .ok (none, arr1, h1)) ∧
      (∃ arr1 h1, Mem.arr_append h arr b = .ok (none, arr1, h1))) := by
  refine ⟨?_, ?_, ?_⟩
  · intro arr1 h1 hr
    obtain ⟨a, es, hs, hw⟩ := Mem.arr_insert_inv h h1 arr arr1 b i hr
    exact ⟨a, Mem.stored_copy h h1 es arr1.elements b a s i hb hs hw⟩
  · intro arr1 h1 hr
    obtain ⟨a, es, hs, hw⟩ := Mem.arr_append_inv h h1 arr arr1 b hr
    exact ⟨a, Mem.stored_copy h h1 es arr1.elements b a s arr.count hb hs hw⟩
  · intro hlen hcap h0 hc hgrow
    obtain ⟨g, hg, hgc, hgl⟩ := Mem.grow_if_full_returns arr hlen hcap hc hgrow
    have hsd : Mem.strdup h b = .ok (h.length, h ++ [some s]) := by
      simp only [Mem.strdup, hb]
    obtain ⟨c, hceq⟩ := Int.eq_ofNat_of_zero_le h0
    constructor
    · intro hi0 hi
      obtain ⟨p, rfl⟩ := Int.eq_ofNat_of_zero_le hi0
      obtain ⟨es1, hsh, hl⟩ := Mem.shift_right_returns p (c - p) g.elements (by omega)
      have hk : (g.count - (p : Int)).toNat = c - p := by omega
      have hguard : ¬ ((p : Int) < 0 ∨ (p : Int) > arr.count) := by omega
      have hn : ¬ ((p : Int) < 0) := by omega
      have hpl : p < es1.length := by omega
      exact ⟨{ g with elements := es1.set p (some h.length), count := g.count + 1 },
        h ++ [some s], by
          rw [Mem.arr_insert, if_neg hguard]
          simp only [hg, hk, hsh, hsd, Mem.slot_set, hn, if_false, Int.toNat_ofNat, hpl,
            if_true]⟩
    · have hn : ¬ (g.count < 0) := by omega
      have hcl : g.count.toNat < g.elements.length := by omega
      exact ⟨{ g with
          elements := g.elements.set g.count.toNat (some h.length),
          count := g.count + 1 }, h ++ [some s], by
          simp only [Mem.arr_append, hg, hsd, Mem.slot_set, hn, if_false, hcl, if_true]⟩

/-- Witness for C16: the caller's string "hello" at address 0, put in at
index 0 of the full one-slot array whose slot holds the address 1 of the
string "x", and appended to it. -/
theorem stored_copy_is_independent_witness :
    (∃ a, (⟨2, 2, [some 2, some 1]⟩ : Mem.Array).elements[(0 : Int).toNat]? = some (some a) ∧
      a ≠ 0 ∧
      Mem.deref [some "hello", some "x", some "hello"] a = some "hello" ∧
      Mem.deref [some "hello", some "x", some "hello"] 0 = some "hello" ∧
      (∀ s2, Mem.deref (Mem.overwrite [some "hello", some "x", some "hello"] 0 s2) a
        = some "hello") ∧
      Mem.deref (Mem.release [some "hello", some "x", some "hello"] 0) a = some "hello") ∧
    (∃ arr1 h1, Mem.arr_append [some "hello", some "x"] ⟨1, 1, [some 1]⟩ 0
      = .ok (none, arr1, h1)) := by
  obtain ⟨h1, -, h3⟩ :=
    stored_copy_is_independent [some "hello", some "x"] ⟨1, 1, [some 1]⟩ 0 "hello" 0 rfl
  exact ⟨h1 ⟨2, 2, [some 2, some 1]⟩ [some "hello", some "x", some "hello"] rfl,
    (h3 (by decide) (by decide) (by decide) (by decide) (by decide)).2⟩

end Arrays
